import Mathlib

/-
Verification development for the Ice 2DA Editor's tabular text codec.

The embedding models text as lists of characters (`Str`).  Python strings
become `Str`, spans become pairs of `Nat`, and the in-place list mutations of
the source become pure list operations.  File I/O is modelled by passing the
file's full text as a `Str`; `load_2da` takes the text instead of a path and
`save_2da` returns the bytes it would write.  The `_linesep` attribute that
the Python loader stashes on the header format object is carried as an
explicit `linesep` field of `TwoDAData` (the loader always sets it, and the
saver reads it with default newline, so for every loaded document the two
representations agree).

The model of `str.splitlines` covers the line terminators this codec reads
and writes: LF, CR and CRLF.  Whitespace is the ASCII whitespace recognised
by Python's `str.strip` and by the `\S+` token pattern.
-/

abbrev Str := List Char

/-- ASCII whitespace, as recognised by Python's default `str.strip` and by
the regex class `\s` on ASCII text. -/
def isWs (c : Char) : Bool :=
  c == ' ' || c == '\t' || c == '\n' || c == '\r' || c == '\x0b' || c == '\x0c'

/-- Model of Python `str.lstrip()`. -/
def lstrip (s : Str) : Str := s.dropWhile isWs

/-- Model of Python `str.rstrip()`. -/
def rstrip (s : Str) : Str := ((s.reverse).dropWhile isWs).reverse

/-- Model of Python `str.strip()`. -/
def pystrip (s : Str) : Str := rstrip (lstrip s)

/-- Model of Python `str.ljust(width)`: pad on the right with spaces up to
`width`; a longer string is returned unchanged. -/
def ljust (s : Str) (width : Nat) : Str :=
  s ++ List.replicate (width - s.length) ' '

/-- Model of Python `needle in haystack` restricted to the two-character
needle carriage-return/line-feed, used by the loader's terminator
detection on the raw file bytes. -/
def containsCRLF : Str → Bool
  | [] => false
  | [_] => false
  | c :: d :: cs => (c == '\r' && d == '\n') || containsCRLF (d :: cs)

/-- Model of Python `text.replace(crlf, lf)`: left-to-right single pass
replacing each carriage-return/line-feed pair by a line feed. -/
def replaceCRLF : Str → Str
  | [] => []
  | [c] => [c]
  | c :: d :: cs =>
      if c = '\r' ∧ d = '\n' then '\n' :: replaceCRLF cs
      else c :: replaceCRLF (d :: cs)

/-- True when the character terminates a line. -/
def isBreak (c : Char) : Bool := c == '\n' || c == '\r'

/-- Helper for `splitLines`: `acc` holds the current line reversed. -/
def splitLinesAux (acc : Str) : Str → List Str
  | [] => if acc = [] then [] else [acc.reverse]
  | [c] => if isBreak c then [acc.reverse] else [(c :: acc).reverse]
  | c :: d :: cs =>
      if c = '\r' ∧ d = '\n' then acc.reverse :: splitLinesAux [] cs
      else if isBreak c then acc.reverse :: splitLinesAux [] (d :: cs)
      else splitLinesAux (c :: acc) (d :: cs)

/-- Model of Python `str.splitlines()` for the LF, CR and CRLF terminators
handled by this codec. -/
def splitLines (t : Str) : List Str := splitLinesAux [] t

/-- The sentinel token denoting an empty cell. -/
def sentinel : Str := ['*', '*', '*', '*']

/-- The tag checked by the loader's version detection. -/
def str2DA : Str := ['2', 'D', 'A']

/-- The default version label assumed when none is recognised. -/
def default2DA : Str := ['2', 'D', 'A', ' ', 'V', '2', '.', '0']

/-- A line-feed terminator. -/
def lfStr : Str := ['\n']

/-- A carriage-return/line-feed terminator. -/
def crlfStr : Str := ['\r', '\n']

/-- Model of Python `s.startswith(p)`. -/
def py_startswith (p s : Str) : Bool := s.take p.length = p

/-- One parsed line: the raw text, the token texts, and the token spans
(half-open character offsets), mirroring the `TwoDARow` dataclass. -/
structure TwoDARow where
  raw : Str
  fields : List Str
  spans : List (Nat × Nat)
deriving DecidableEq, Repr

/-- Core of the tokenizer: computes the maximal runs of non-whitespace
characters of the suffix that starts at absolute position `pos`, exactly
the matches of `re.finditer` with pattern backslash-S-plus.  A
non-whitespace character is merged into the run that starts immediately
after it; otherwise it opens a run of its own. -/
def tokCore : Nat → Str → List ((Nat × Nat) × Str)
  | _, [] => []
  | pos, c :: cs =>
      let rest := tokCore (pos + 1) cs
      if isWs c then rest
      else
        match rest with
        | ((s, e), t) :: more =>
            if s = pos + 1 then ((pos, e), c :: t) :: more
            else ((pos, pos + 1), [c]) :: rest
        | [] => [((pos, pos + 1), [c])]

/-- Model of `parse_raw_line`: tokenize the line and record raw text,
field values (copies of the token texts) and spans. -/
def parse_raw_line (line : Str) : TwoDARow :=
  let ts := tokCore 0 line
  { raw := line, fields := ts.map (·.2), spans := ts.map (·.1) }

/-- The in-memory table, mirroring the `TwoDAData` dataclass. -/
structure TwoDAData where
  header_fields : List Str
  row_fields : List (List Str)
  header_format : TwoDARow
  row_formats : List TwoDARow
  version_line : Str
  empty_lines_before_header : Nat
  linesep : Str
deriving DecidableEq, Repr

/-- True when the line is blank after stripping, as in the loader's
`not line.strip()` tests. -/
def blankLine (l : Str) : Bool := pystrip l = []

/-- Line-level half of `load_2da`: version-line handling, blank counting,
tokenization of header and rows over the already split lines, carrying the
detected terminator.  Returns `none` where the source raises its
empty-or-invalid error. -/
def load_lines (lines : List Str) (ls : Str) : Option TwoDAData :=
  let vp : Str × List Str :=
    match lines with
    | [] => (default2DA, [])
    | l0 :: rest =>
        if py_startswith str2DA (pystrip l0) then (pystrip l0, rest)
        else (default2DA, l0 :: rest)
  let empty_count := (vp.2.takeWhile blankLine).length
  let lines2 := vp.2.dropWhile blankLine
  match (lines2.filter (fun l => !(blankLine l))).map parse_raw_line with
  | [] => none
  | hfmt :: rfmts =>
      some { header_fields := hfmt.fields
           , row_fields := rfmts.map (·.fields)
           , header_format := hfmt
           , row_formats := rfmts
           , version_line := vp.1
           , empty_lines_before_header := empty_count
           , linesep := ls }

/-- Model of `load_2da`: terminator detection and decoding, then the
line-level processing of `load_lines`. -/
def load_2da (text : Str) : Option TwoDAData :=
  let hasCRLF := containsCRLF text
  let linesep := if hasCRLF then crlfStr else lfStr
  let text2 := if hasCRLF then replaceCRLF text else text
  load_lines (splitLines text2) linesep

/-- Longest current field value at row position `i` across all rows; `0`
when no row reaches that position (a shorter row contributes nothing). -/
def colWidth (rows : List (List Str)) (i : Nat) : Nat :=
  rows.foldl (fun m row => max m ((row.getD i []).length)) 0

/-- Largest row length, the `data_num_cols` of the source. -/
def maxRowLen (rows : List (List Str)) : Nat :=
  rows.foldl (fun m row => max m row.length) 0

/-- Model of `calculate_column_widths`: header widths are the header label
lengths; data widths are the longest current field at each row position. -/
def calculate_column_widths (d : TwoDAData) : List Nat × List Nat :=
  if d.header_fields = [] ∨ d.row_fields = [] then ([], [])
  else
    ( d.header_fields.map List.length
    , (List.range (maxRowLen d.row_fields)).map (colWidth d.row_fields) )

/-- The expansion test of `rebuild_line_dynamic`: some value outgrows its
original span or is the sentinel. -/
def needs_expansion (spans : List (Nat × Nat)) (vals : List Str) : Bool :=
  (spans.zip vals).any (fun sv => sv.2.length > sv.1.2 - sv.1.1 || sv.2 = sentinel)

/-- Overwrite `res` in place starting at position `p` with the characters
of `txt`; positions beyond the end of `res` are dropped, matching the
guarded `result[pos] = char` writes of the source. -/
def writeChars : Str → Nat → Str → Str
  | res, _, [] => res
  | res, p, c :: cs => writeChars (res.set p c) (p + 1) cs

/-- The spacing-preserving branch of `rebuild_line_dynamic`: each value is
cut and padded to its original span width and patched over the raw line. -/
def preserveRebuild (raw : Str) (spans : List (Nat × Nat)) (vals : List Str) : Str :=
  rstrip ((spans.zip vals).foldl
    (fun res sv => writeChars res sv.1.1 (ljust (sv.2.take (sv.1.2 - sv.1.1)) (sv.1.2 - sv.1.1)))
    raw)

/-- Width actually given to a value in the dynamic-expansion branch. -/
def actualWidth (origWidth : Nat) (v : Str) : Nat :=
  if v = sentinel then 4 else max origWidth v.length

/-- Text emitted for a value in the dynamic-expansion branch. -/
def fieldText (origWidth : Nat) (v : Str) : Str :=
  if v = sentinel then sentinel else ljust v (actualWidth origWidth v)

/-- Spacing emitted after a field in the dynamic-expansion branch: the
original gap shrunk by the field's expansion, at least one space.  Computed
over the integers because a sentinel shorter than its span shrinks by a
negative amount, growing the gap. -/
def spacingAfter (s e nextStart : Nat) (v : Str) : Str :=
  List.replicate (max 1 ((nextStart : Int) - e - ((actualWidth (e - s) v : Int) - (e - s)))).toNat ' '

/-- The dynamic-expansion branch of `rebuild_line_dynamic`: fields and the
adjusted inter-field spacing, in emission order.  The loop of the source
iterates over `zip(spans, new_fields)` and appends spacing whenever another
span follows, so a trailing value without a span is dropped and a trailing
span without a value still gets its spacing emitted. -/
def elseParts : List (Nat × Nat) → List Str → List Str
  | [], _ => []
  | _, [] => []
  | [(s, e)], v :: _ => [fieldText (e - s) v]
  | (s, e) :: (s2, e2) :: spans, v :: vals =>
      fieldText (e - s) v :: spacingAfter s e s2 v :: elseParts ((s2, e2) :: spans) vals

/-- Model of `rebuild_line_dynamic` from `data/twoda.py` (the module used
by `save_2da`).  The `column_widths` parameter is received and, as in the
source, never read. -/
def rebuild_line_dynamic (fmt : TwoDARow) (new_fields : List Str)
    (column_widths : List Nat) (preserve_spacing : Bool) : Str :=
  let _ := column_widths
  if new_fields = [] ∨ fmt.spans = [] then fmt.raw
  else if preserve_spacing && !(needs_expansion fmt.spans new_fields) then
    preserveRebuild fmt.raw fmt.spans new_fields
  else
    rstrip (List.flatten (elseParts fmt.spans new_fields))

/-- Model of `rebuild_line_with_calculated_positions` from `data/twoda.py`:
each value left-justified to its calculated width, two-space separators,
right-trimmed. -/
def rebuild_line_with_calculated_positions (fmt : TwoDARow) (fields : List Str)
    (column_widths : List Nat) : Str :=
  if fields = [] then fmt.raw
  else
    rstrip (List.flatten (fields.enum.map (fun iv =>
      ljust iv.2 (column_widths.getD iv.1 iv.2.length) ++
        (if iv.1 < fields.length - 1 then [' ', ' '] else []))))

/-- Join lines with the given terminator after every line, the byte stream
`save_2da` writes. -/
def emitLines (ls : Str) (lines : List Str) : Str :=
  List.flatten (lines.map (· ++ ls))

/-- Model of `save_2da`: version line, preserved blank lines, header rebuilt
with spacing preservation, rows rebuilt with dynamic expansion; every line
followed by the detected terminator.  Returns the written bytes. -/
def save_2da (d : TwoDAData) : Str :=
  let ws := calculate_column_widths d
  emitLines d.linesep
    (d.version_line :: List.replicate d.empty_lines_before_header [] ++
      [rebuild_line_dynamic d.header_format d.header_fields ws.1 true] ++
      (d.row_formats.zip d.row_fields).map
        (fun fr => rebuild_line_dynamic fr.1 fr.2 ws.2 false))

/-- State of `TwoDATableModel`: the `_header` list (whose first slot is the
blank index-column label added by the file manager) and the `_rows` lists. -/
structure TableModel where
  header : List Str
  rows : List (List Str)
deriving DecidableEq, Repr

/-- Pad a row on the right with copies of `filler` up to length `n`,
modelling the `while len(row) < n: row.append(filler)` loops. -/
def padTo (row : List Str) (n : Nat) (filler : Str) : List Str :=
  row ++ List.replicate (n - row.length) filler

/-- Model of `make_empty_row`: one empty string per header slot. -/
def make_empty_row (m : TableModel) : List Str :=
  List.replicate m.header.length []

/-- Model of `TwoDATableModel.insertRows`: count must be positive, the
position is clamped into range, and `count` empty rows are inserted. -/
def insertRows (m : TableModel) (row count : Int) : Bool × TableModel :=
  if count ≤ 0 then (false, m)
  else
    let r := (min (max row 0) (m.rows.length : Int)).toNat
    (true, { m with
             rows := m.rows.take r ++ List.replicate count.toNat (make_empty_row m) ++
               m.rows.drop r })

/-- Model of `TwoDATableModel.removeRows`: fails on nonpositive count or an
out-of-range start, otherwise deletes the slice up to the last row. -/
def removeRows (m : TableModel) (row count : Int) : Bool × TableModel :=
  if count ≤ 0 then (false, m)
  else if row < 0 ∨ (m.rows.length : Int) ≤ row then (false, m)
  else
    let last := min ((m.rows.length : Int) - 1) (row + count - 1)
    (true, { m with rows := m.rows.take row.toNat ++ m.rows.drop (last + 1).toNat })

/-- Names given to inserted columns: `NewColumn` for a single insertion,
numbered names otherwise. -/
def newColNames (cnt : Nat) : List Str :=
  let base : Str := ['N', 'e', 'w', 'C', 'o', 'l', 'u', 'm', 'n']
  if cnt = 1 then [base]
  else (List.range cnt).map (fun i => base ++ Nat.toDigits 10 (i + 1))

/-- Model of `TwoDATableModel.insertColumns`: clamp the position, insert the
new header names, pad every row with sentinels up to the previous header
length, then insert a sentinel block into every row. -/
def insertColumns (m : TableModel) (column count : Int) : Bool × TableModel :=
  if count ≤ 0 then (false, m)
  else
    let col := (min (max column 0) (m.header.length : Int)).toNat
    let cnt := count.toNat
    let hdr := m.header.take col ++ newColNames cnt ++ m.header.drop col
    let target := hdr.length - cnt
    (true, { header := hdr
           , rows := m.rows.map (fun r =>
               let r1 := padTo r target sentinel
               r1.take col ++ List.replicate cnt sentinel ++ r1.drop col) })

/-- Model of `TwoDATableModel.removeColumns`: fails on nonpositive count or
an out-of-range column, otherwise deletes the header and row slices and
re-pads every row with sentinels up to the new header length. -/
def removeColumns (m : TableModel) (column count : Int) : Bool × TableModel :=
  if count ≤ 0 then (false, m)
  else if column < 0 ∨ (m.header.length : Int) ≤ column then (false, m)
  else
    let last := min ((m.header.length : Int) - 1) (column + count - 1)
    let hdr := m.header.take column.toNat ++ m.header.drop (last + 1).toNat
    (true, { header := hdr
           , rows := m.rows.map (fun r =>
               padTo (r.take column.toNat ++ r.drop (last + 1).toNat) hdr.length sentinel) })

/-- Model of `TwoDATableModel.duplicateRow`: fails out of range, otherwise
inserts a value copy of the row immediately after it. -/
def duplicateRow (m : TableModel) (row : Int) : Bool × TableModel :=
  if row < 0 ∨ (m.rows.length : Int) ≤ row then (false, m)
  else
    (true, { m with
             rows := m.rows.take (row.toNat + 1) ++ [m.rows.getD row.toNat []] ++
               m.rows.drop (row.toNat + 1) })

/-- Model of `TwoDATableModel.extract_data`: returns a copy of the header
and value copies of the rows, each row padded on the right with sentinels up
to the header length; the model state itself is returned unchanged (the
source only reads it). -/
def extract_data (m : TableModel) : (List Str × List (List Str)) × TableModel :=
  ((m.header, m.rows.map (fun r => padTo r m.header.length sentinel)), m)

/-- Model of `TwoDATableModel.setData` for the edit role: bounds-checked;
the touched row is first padded with empty strings up to the header length
(a mutation that persists even when the value is unchanged), then the cell
is overwritten. -/
def setData (m : TableModel) (r c : Int) (v : Str) : Bool × TableModel :=
  if r < 0 ∨ c < 0 then (false, m)
  else if (m.rows.length : Int) ≤ r ∨ (m.header.length : Int) ≤ c then (false, m)
  else
    let row := m.rows.getD r.toNat []
    let row1 := row ++ List.replicate (m.header.length - row.length) ([] : Str)
    (true, { m with rows := m.rows.set r.toNat (row1.set c.toNat v) })

/-- Model of the file manager's document setup after `load_2da`: the table
model is fed a header with a leading blank index-column slot and the loaded
rows. -/
def modelOfData (d : TwoDAData) : TableModel :=
  { header := [] :: d.header_fields, rows := d.row_fields }

/-- Model of `FileManager.save_file` from the in-memory model: extract the
padded data, drop the leading index-column header slot, store into the
document and serialize. -/
def gui_save (d : TwoDAData) (m : TableModel) : Str :=
  let hr := (extract_data m).1
  save_2da { d with header_fields := hr.1.drop 1, row_fields := hr.2 }

/-
Lemmas.  First: whitespace, strip and tokenizer structure.
-/

lemma isWs_of_isBreak {c : Char} (h : isBreak c = true) : isWs c = true := by
  simp only [isBreak, Bool.or_eq_true, beq_iff_eq] at h
  rcases h with h | h <;> simp [isWs, h]

lemma dropWhile_append_all {p : Char → Bool} {xs : Str} (ys : Str)
    (h : ∀ c ∈ xs, p c = true) :
    List.dropWhile p (xs ++ ys) = List.dropWhile p ys := by
  induction xs with
  | nil => simp
  | cons c cs ih =>
      simp only [List.cons_append, List.dropWhile_cons, h c (by simp)]
      exact ih (fun d hd => h d (by simp [hd]))

lemma dropWhile_idem {p : Char → Bool} (l : Str) :
    List.dropWhile p (List.dropWhile p l) = List.dropWhile p l := by
  induction l with
  | nil => simp
  | cons c cs ih =>
      by_cases hc : p c = true
      · simpa [List.dropWhile_cons, hc] using ih
      · simp [List.dropWhile_cons, hc]

lemma rstrip_append_ws {xs ys : Str} (h : ∀ c ∈ ys, isWs c = true) :
    rstrip (xs ++ ys) = rstrip xs := by
  unfold rstrip
  rw [List.reverse_append, dropWhile_append_all xs.reverse
    (fun c hc => h c (List.mem_reverse.mp hc))]

lemma exists_rstrip_decomp (l : Str) :
    ∃ ys, l = rstrip l ++ ys ∧ ∀ c ∈ ys, isWs c = true := by
  refine ⟨(l.reverse.takeWhile isWs).reverse, ?_, ?_⟩
  · conv_lhs => rw [← l.reverse_reverse, ← List.takeWhile_append_dropWhile isWs l.reverse]
    rw [List.reverse_append]
    rfl
  · intro c hc
    exact List.mem_takeWhile_imp (List.mem_reverse.mp hc)

lemma rstrip_append_last {xs : Str} {c : Char} (h : isWs c = false) :
    rstrip (xs ++ [c]) = xs ++ [c] := by
  unfold rstrip
  rw [List.reverse_append]
  simp [List.dropWhile_cons, h]

lemma rstrip_idem (l : Str) : rstrip (rstrip l) = rstrip l := by
  unfold rstrip
  rw [List.reverse_reverse, dropWhile_idem]

lemma mem_rstrip {l : Str} {c : Char} (h : c ∈ rstrip l) : c ∈ l := by
  unfold rstrip at h
  rw [List.mem_reverse] at h
  exact List.mem_reverse.mp ((List.dropWhile_sublist _).subset h)

lemma mem_pystrip {l : Str} {c : Char} (h : c ∈ pystrip l) : c ∈ l := by
  unfold pystrip lstrip at h
  exact (List.dropWhile_sublist _).subset (mem_rstrip h)

lemma rstrip_eq_nil_iff {l : Str} : rstrip l = [] ↔ ∀ c ∈ l, isWs c = true := by
  unfold rstrip
  rw [List.reverse_eq_nil_iff, List.dropWhile_eq_nil_iff]
  constructor
  · intro h c hc
    exact h c (List.mem_reverse.mpr hc)
  · intro h c hc
    exact h c (List.mem_reverse.mp hc)

lemma pystrip_eq_nil_iff {l : Str} : pystrip l = [] ↔ ∀ c ∈ l, isWs c = true := by
  unfold pystrip lstrip
  rw [rstrip_eq_nil_iff]
  constructor
  · intro h c hc
    by_cases hw : isWs c = true
    · exact hw
    · have : c ∈ List.dropWhile isWs l := by
        have hsplit := List.takeWhile_append_dropWhile isWs l
        rcases (List.mem_append.mp (by rw [hsplit]; exact hc)) with h1 | h1
        · exact absurd (List.mem_takeWhile_imp h1) hw
        · exact h1
      exact h c this
  · intro h c hc
    exact h c ((List.dropWhile_sublist _).subset hc)

lemma blankLine_eq_false_iff {l : Str} :
    blankLine l = false ↔ ∃ c ∈ l, isWs c = false := by
  unfold blankLine
  simp only [decide_eq_false_iff_not]
  constructor
  · intro h
    by_contra hall
    push_neg at hall
    exact h (pystrip_eq_nil_iff.mpr (fun c hc => by simpa using hall c hc))
  · rintro ⟨c, hc, hw⟩ hnil
    have := pystrip_eq_nil_iff.mp hnil c hc
    simp_all

lemma tokCore_ws {c : Char} (p : Nat) (cs : Str) (hc : isWs c = true) :
    tokCore p (c :: cs) = tokCore (p + 1) cs := by
  simp [tokCore, hc]

lemma tokCore_cons_nonws {c : Char} (p : Nat) (cs : Str) (hc : isWs c = false) :
    tokCore p (c :: cs) =
      match tokCore (p + 1) cs with
      | ((s, e), t) :: more =>
          if s = p + 1 then ((p, e), c :: t) :: more
          else ((p, p + 1), [c]) :: ((s, e), t) :: more
      | [] => [((p, p + 1), [c])] := by
  simp only [tokCore, hc, Bool.false_eq_true, if_false]
  rcases tokCore (p + 1) cs with _ | ⟨⟨⟨s, e⟩, t⟩, more⟩ <;> rfl

lemma tokCore_start_ge : ∀ (l : Str) (p : Nat), ∀ x ∈ tokCore p l, p ≤ x.1.1 := by
  intro l
  induction l with
  | nil => intro p x hx; simp [tokCore] at hx
  | cons c cs ih =>
      intro p x hx
      by_cases hc : isWs c = true
      · rw [tokCore_ws p cs hc] at hx
        exact le_trans (Nat.le_succ p) (ih (p + 1) x hx)
      · rw [tokCore_cons_nonws p cs (by simpa using hc)] at hx
        rcases hrest : tokCore (p + 1) cs with _ | ⟨⟨⟨s, e⟩, t⟩, more⟩
        · rw [hrest] at hx
          simp at hx
          simp [hx]
        · rw [hrest] at hx
          by_cases hs : s = p + 1
          · simp only [hs, if_true] at hx
            rcases List.mem_cons.mp hx with h1 | h1
            · simp [h1]
            · have := ih (p + 1) x (hrest ▸ List.mem_cons_of_mem _ h1)
              omega
          · simp only [hs, if_false] at hx
            rcases List.mem_cons.mp hx with h1 | h1
            · simp [h1]
            · have := ih (p + 1) x (hrest ▸ h1)
              omega

/-- Structural facts the tokenizer guarantees from minimum start position
`p`: ordered spans with width equal to token length, gaps of at least one
column, nonempty whitespace-free tokens. -/
def tokensOK : Nat → List ((Nat × Nat) × Str) → Prop
  | _, [] => True
  | p, ((s, e), t) :: rest =>
      p ≤ s ∧ e = s + t.length ∧ t ≠ [] ∧ (∀ c ∈ t, isWs c = false) ∧ tokensOK (e + 1) rest

lemma tokensOK_mono : ∀ (ts : List ((Nat × Nat) × Str)) {p q : Nat},
    q ≤ p → tokensOK p ts → tokensOK q ts := by
  intro ts
  induction ts with
  | nil => intro p q _ _; trivial
  | cons x rest _ =>
      intro p q hq h
      obtain ⟨⟨s, e⟩, t⟩ := x
      obtain ⟨h1, h2⟩ := h
      exact ⟨le_trans hq h1, h2⟩

lemma tokCore_ok : ∀ (l : Str) (p : Nat), tokensOK p (tokCore p l) := by
  intro l
  induction l with
  | nil => intro p; trivial
  | cons c cs ih =>
      intro p
      by_cases hc : isWs c = true
      · rw [tokCore_ws p cs hc]
        exact tokensOK_mono _ (Nat.le_succ p) (ih (p + 1))
      · rw [tokCore_cons_nonws p cs (by simpa using hc)]
        rcases hrest : tokCore (p + 1) cs with _ | ⟨⟨⟨s, e⟩, t⟩, more⟩
        · exact ⟨le_refl p, by simp, by simp, by
            intro d hd
            simp only [List.mem_singleton] at hd
            simpa [hd] using hc, trivial⟩
        · have hok := ih (p + 1)
          rw [hrest] at hok
          obtain ⟨hs1, he, htne, htws, hmore⟩ := hok
          by_cases hs : s = p + 1
          · simp only [hs, if_true]
            refine ⟨le_refl p, by simp [he, hs]; omega, by simp, ?_, ?_⟩
            · intro d hd
              rcases List.mem_cons.mp hd with h1 | h1
              · simpa [h1] using hc
              · exact htws d h1
            · exact hmore
          · simp only [hs, if_false]
            refine ⟨le_refl p, by simp, by simp, ?_, ?_⟩
            · intro d hd
              simp only [List.mem_singleton] at hd
              simpa [hd] using hc
            · exact ⟨by omega, he, htne, htws, hmore⟩

lemma tokCore_all_ws : ∀ (l : Str) (p : Nat), (∀ c ∈ l, isWs c = true) →
    tokCore p l = [] := by
  intro l
  induction l with
  | nil => intro p _; rfl
  | cons c cs ih =>
      intro p h
      rw [tokCore_ws p cs (h c (by simp))]
      exact ih (p + 1) (fun d hd => h d (by simp [hd]))

lemma tokCore_ne_nil : ∀ (l : Str) (p : Nat), (∃ c ∈ l, isWs c = false) →
    tokCore p l ≠ [] := by
  intro l
  induction l with
  | nil => intro p h; simp at h
  | cons c cs ih =>
      intro p h
      by_cases hc : isWs c = true
      · rw [tokCore_ws p cs hc]
        rcases h with ⟨d, hd, hw⟩
        rcases List.mem_cons.mp hd with h1 | h1
        · subst h1; simp_all
        · exact ih (p + 1) ⟨d, h1, hw⟩
      · rw [tokCore_cons_nonws p cs (by simpa using hc)]
        rcases tokCore (p + 1) cs with _ | ⟨⟨⟨s, e⟩, t⟩, more⟩
        · simp
        · by_cases hs : s = p + 1 <;> simp [hs]

lemma tokCore_append_ws {ys : Str} (hys : ∀ c ∈ ys, isWs c = true) :
    ∀ (xs : Str) (p : Nat), tokCore p (xs ++ ys) = tokCore p xs := by
  intro xs
  induction xs with
  | nil => intro p; exact tokCore_all_ws ys p hys
  | cons c cs ih =>
      intro p
      by_cases hc : isWs c = true
      · rw [List.cons_append, tokCore_ws p _ hc, tokCore_ws p cs hc]
        exact ih (p + 1)
      · rw [List.cons_append, tokCore_cons_nonws p _ (by simpa using hc),
          tokCore_cons_nonws p cs (by simpa using hc), ih (p + 1)]

lemma tokCore_rstrip (l : Str) (p : Nat) : tokCore p (rstrip l) = tokCore p l := by
  obtain ⟨ys, hdecomp, hws⟩ := exists_rstrip_decomp l
  conv_rhs => rw [hdecomp]
  rw [tokCore_append_ws hws]

lemma tokCore_token : ∀ (t : Str) (p : Nat) (rest : Str), t ≠ [] →
    (∀ c ∈ t, isWs c = false) →
    (rest = [] ∨ ∃ d ds, rest = d :: ds ∧ isWs d = true) →
    tokCore p (t ++ rest) = ((p, p + t.length), t) :: tokCore (p + t.length) rest := by
  intro t
  induction t with
  | nil => intro p rest h; exact absurd rfl h
  | cons c t2 ih =>
      intro p rest _ hws hrest
      rcases ht2 : t2 with _ | ⟨c2, t3⟩
      · rw [List.cons_append, List.nil_append]
        rcases hrest with h | ⟨d, ds, hds, hd⟩
        · subst h
          rw [tokCore_cons_nonws p [] (hws c (by simp))]
          rfl
        · subst hds
          rw [tokCore_cons_nonws p (d :: ds) (hws c (by simp))]
          rw [tokCore_ws (p + 1) ds hd]
          rcases hmore : tokCore (p + 2) ds with _ | ⟨⟨⟨s, e⟩, tt⟩, more⟩
          · simp [tokCore_ws (p + 1) ds hd, hmore]
          · have hge : p + 2 ≤ s := by
              have h0 := tokCore_start_ge ds (p + 2) ((s, e), tt)
                (by rw [hmore]; exact List.mem_cons_self _ _)
              simpa using h0
            have hs : s ≠ p + 1 := by omega
            simp [tokCore_ws (p + 1) ds hd, hmore, hs]
      · subst ht2
        have ht2ne : (c2 :: t3) ≠ [] := by simp
        rw [List.cons_append,
          tokCore_cons_nonws p ((c2 :: t3) ++ rest) (hws c (by simp)),
          ih (p + 1) rest ht2ne (fun d hd => hws d (by simp [hd])) hrest]
        have hlen : p + 1 + (c2 :: t3).length = p + (c :: c2 :: t3).length := by
          simp [List.length_cons]
          omega
        simp only [List.length_cons] at hlen ⊢
        simp [hlen]

lemma tokCore_replicate_space : ∀ (g p : Nat) (rest : Str),
    tokCore p (List.replicate g ' ' ++ rest) = tokCore (p + g) rest := by
  intro g
  induction g with
  | zero => intro p rest; simp
  | succ g ih =>
      intro p rest
      rw [List.replicate_succ, List.cons_append, tokCore_ws _ _ (by simp [isWs]), ih]
      congr 1
      omega

lemma tokensOK_widths : ∀ (ts : List ((Nat × Nat) × Str)) (p : Nat), tokensOK p ts →
    ∀ x ∈ ts, x.1.2 = x.1.1 + x.2.length ∧ x.2 ≠ [] ∧ ∀ c ∈ x.2, isWs c = false := by
  intro ts
  induction ts with
  | nil => intro p _ x hx; simp at hx
  | cons y rest ih =>
      intro p hok x hx
      obtain ⟨⟨s, e⟩, t⟩ := y
      obtain ⟨h1, h2, h3, h4, h5⟩ := hok
      rcases List.mem_cons.mp hx with hh | hh
      · subst hh
        exact ⟨h2, h3, h4⟩
      · exact ih (e + 1) h5 x hh

lemma tokCore_slice : ∀ (l : Str) (p : Nat), ∀ x ∈ tokCore p l,
    (l.drop (x.1.1 - p)).take (x.1.2 - x.1.1) = x.2 := by
  intro l
  induction l with
  | nil => intro p x hx; simp [tokCore] at hx
  | cons c cs ih =>
      intro p x hx
      have hdropstep : ∀ y ∈ tokCore (p + 1) cs,
          ((c :: cs).drop (y.1.1 - p)).take (y.1.2 - y.1.1) = y.2 := by
        intro y hy
        have hge := tokCore_start_ge cs (p + 1) y hy
        have harith : y.1.1 - p = (y.1.1 - (p + 1)) + 1 := by omega
        rw [harith, List.drop_succ_cons]
        exact ih (p + 1) y hy
      by_cases hc : isWs c = true
      · rw [tokCore_ws p cs hc] at hx
        exact hdropstep x hx
      · rw [tokCore_cons_nonws p cs (by simpa using hc)] at hx
        rcases hrest : tokCore (p + 1) cs with _ | ⟨⟨⟨s, e⟩, t⟩, more⟩
        · rw [hrest] at hx
          simp only [List.mem_singleton] at hx
          subst hx
          simp
        · rw [hrest] at hx
          have hok := tokCore_ok cs (p + 1)
          rw [hrest] at hok
          obtain ⟨hs1, he, htne, htws, hmore⟩ := hok
          by_cases hs : s = p + 1
          · simp only [hs, if_true] at hx
            rcases List.mem_cons.mp hx with h1 | h1
            · subst h1
              have hhead := ih (p + 1) ((s, e), t)
                (by rw [hrest]; exact List.mem_cons_self _ _)
              simp only at hhead
              have h3 : e - (p + 1) = t.length := by omega
              have h4 : cs.take t.length = t := by
                rw [← h3]
                simpa [hs] using hhead
              have h2 : e - p = t.length + 1 := by omega
              simp only [Nat.sub_self, List.drop_zero, h2, List.take_succ_cons, h4]
            · exact hdropstep x (by rw [hrest]; exact List.mem_cons_of_mem _ h1)
          · simp only [hs, if_false] at hx
            rcases List.mem_cons.mp hx with h1 | h1
            · subst h1
              simp
            · exact hdropstep x (by rw [hrest]; exact h1)

lemma set_eq_of_getElem? {l : Str} {i : Nat} {c : Char} (h : l[i]? = some c) :
    l.set i c = l := by
  induction l generalizing i with
  | nil => simp at h
  | cons a as ih =>
      cases i with
      | zero =>
          simp only [List.getElem?_cons_zero, Option.some_inj] at h
          simp [h]
      | succ n =>
          simp only [List.getElem?_cons_succ] at h
          simp [ih h]

lemma writeChars_id : ∀ (t : Str) (res : Str) (p : Nat),
    (res.drop p).take t.length = t → writeChars res p t = res := by
  intro t
  induction t with
  | nil => intro res p _; rfl
  | cons c cs ih =>
      intro res p h
      cases hd : res.drop p with
      | nil => rw [hd] at h; simp at h
      | cons x xs =>
          rw [hd] at h
          simp only [List.length_cons, List.take_succ_cons, List.cons.injEq] at h
          obtain ⟨hx, hxs⟩ := h
          have hget : res[p]? = some c := by
            have h0 := List.getElem?_drop res p 0
            rw [hd] at h0
            simpa [hx] using h0.symm
          show writeChars (res.set p c) (p + 1) cs = res
          rw [set_eq_of_getElem? hget]
          apply ih
          have hdd : res.drop (p + 1) = xs := by
            have h1 : List.drop 1 (List.drop p res) = List.drop (p + 1) res := by
              rw [List.drop_drop]
            rw [← h1, hd]
            simp
          rw [hdd, hxs]

lemma preserveRebuild_eq_rstrip (raw : Str) :
    preserveRebuild raw ((tokCore 0 raw).map (·.1)) ((tokCore 0 raw).map (·.2)) =
      rstrip raw := by
  unfold preserveRebuild
  rw [List.zip_map']
  have hmapid : (tokCore 0 raw).map (fun a => (a.1, a.2)) = tokCore 0 raw := by
    simp
  rw [hmapid]
  have hfold : ∀ (ts : List ((Nat × Nat) × Str)),
      (∀ x ∈ ts, x.1.2 = x.1.1 + x.2.length) →
      (∀ x ∈ ts, (raw.drop x.1.1).take (x.1.2 - x.1.1) = x.2) →
      ts.foldl (fun res sv =>
        writeChars res sv.1.1 (ljust (sv.2.take (sv.1.2 - sv.1.1)) (sv.1.2 - sv.1.1))) raw
        = raw := by
    intro ts
    induction ts with
    | nil => intro _ _; rfl
    | cons y rest ih =>
        intro hw hsl
        have hwy := hw y (by simp)
        have hsly := hsl y (by simp)
        have hwidth : y.1.2 - y.1.1 = y.2.length := by omega
        have htake : y.2.take (y.1.2 - y.1.1) = y.2 := by
          rw [hwidth, List.take_length]
        have hljust : ljust (y.2.take (y.1.2 - y.1.1)) (y.1.2 - y.1.1) = y.2 := by
          rw [htake]
          unfold ljust
          rw [hwidth]
          simp
        have hwc : writeChars raw y.1.1 y.2 = raw := by
          apply writeChars_id
          rw [← hwidth]
          exact hsly
        rw [List.foldl_cons, hljust, hwc]
        exact ih (fun x hx => hw x (by simp [hx])) (fun x hx => hsl x (by simp [hx]))
  rw [hfold (tokCore 0 raw)
    (fun x hx => (tokensOK_widths (tokCore 0 raw) 0 (tokCore_ok raw 0) x hx).1)
    (fun x hx => by simpa using tokCore_slice raw 0 x hx)]

lemma rstrip_eq_self_of_ws_free {t : Str} (hne : t ≠ [])
    (hws : ∀ c ∈ t, isWs c = false) : rstrip t = t := by
  rcases hrev : t.reverse with _ | ⟨c, rev2⟩
  · exact absurd (by simpa using congrArg List.reverse hrev) hne
  · have hct : c ∈ t := by
      rw [← List.mem_reverse, hrev]
      simp
    unfold rstrip
    rw [hrev, List.dropWhile_cons, hws c hct]
    simp only [Bool.false_eq_true, if_false]
    rw [← hrev, List.reverse_reverse]

lemma rstrip_append_of_ne_nil (xs : Str) {ys : Str} (h : rstrip ys ≠ []) :
    rstrip (xs ++ ys) = xs ++ rstrip ys := by
  unfold rstrip at *
  rw [List.reverse_append, List.dropWhile_append]
  have hne : (List.dropWhile isWs ys.reverse).isEmpty = false := by
    rcases hd : List.dropWhile isWs ys.reverse with _ | ⟨a, b⟩
    · rw [hd] at h
      simp at h
    · simp
  rw [hne]
  simp

/-- A token followed by its trailing gap of spaces, repeated, then the last
token: the canonical shape of a line written by the dynamic-expansion
rebuilder. -/
def glueTG : List (Str × Nat) → Str → Str
  | [], last => last
  | (t, g) :: rest, last => t ++ List.replicate g ' ' ++ glueTG rest last

/-- The token list, with spans, that the tokenizer recovers from a canonical
line that starts at position `p`. -/
def canonToks : Nat → List (Str × Nat) → Str → List ((Nat × Nat) × Str)
  | p, [], last => [((p, p + last.length), last)]
  | p, (t, g) :: rest, last => ((p, p + t.length), t) :: canonToks (p + t.length + g) rest last

/-- Token/gap pairs of a parsed line: each token with the distance to the
next token's start. -/
def tgPairs : List ((Nat × Nat) × Str) → List (Str × Nat)
  | [] => []
  | [_] => []
  | ((_, e), t) :: (((s2, e2), t2) :: rest) => (t, s2 - e) :: tgPairs (((s2, e2), t2) :: rest)

/-- The last token of a parsed line. -/
def tgLast : List ((Nat × Nat) × Str) → Str
  | [] => []
  | [x] => x.2
  | _ :: x :: rest => tgLast (x :: rest)

/-- Well-formedness of a token/gap decomposition: tokens nonempty and
whitespace-free, gaps at least one column. -/
def goodTG (tg : List (Str × Nat)) (last : Str) : Prop :=
  (∀ x ∈ tg, x.1 ≠ [] ∧ (∀ c ∈ x.1, isWs c = false) ∧ 1 ≤ x.2) ∧
    last ≠ [] ∧ ∀ c ∈ last, isWs c = false

lemma tokCore_glueTG : ∀ (tg : List (Str × Nat)) (last : Str) (p : Nat),
    goodTG tg last → tokCore p (glueTG tg last) = canonToks p tg last := by
  intro tg
  induction tg with
  | nil =>
      intro last p hg
      obtain ⟨_, hne, hws⟩ := hg
      have := tokCore_token last p [] hne hws (Or.inl rfl)
      simpa [glueTG, canonToks] using this
  | cons x rest ih =>
      intro last p hg
      obtain ⟨hpairs, hlast⟩ := hg
      obtain ⟨t, g⟩ := x
      obtain ⟨htne, htws, hg1⟩ := hpairs (t, g) (by simp)
      have hrest' : List.replicate g ' ' ++ glueTG rest last = ' ' :: (List.replicate (g - 1) ' ' ++ glueTG rest last) := by
        rcases g with _ | g2
        · omega
        · simp [List.replicate_succ]
      have hglue : glueTG ((t, g) :: rest) last =
          t ++ (List.replicate g ' ' ++ glueTG rest last) := by
        simp [glueTG]
      rw [hglue]
      rw [tokCore_token t p _ htne htws (Or.inr ⟨' ', _, hrest', by simp [isWs]⟩),
        tokCore_replicate_space g (p + t.length) (glueTG rest last),
        ih last (p + t.length + g) ⟨fun y hy => hpairs y (by simp [hy]), hlast⟩]
      rfl

lemma canonToks_ok : ∀ (tg : List (Str × Nat)) (last : Str) (p : Nat),
    goodTG tg last → tokensOK p (canonToks p tg last) := by
  intro tg
  induction tg with
  | nil =>
      intro last p hg
      exact ⟨le_refl p, rfl, hg.2.1, hg.2.2, trivial⟩
  | cons x rest ih =>
      intro last p hg
      obtain ⟨hpairs, hlast⟩ := hg
      obtain ⟨t, g⟩ := x
      obtain ⟨htne, htws, hg1⟩ := hpairs (t, g) (by simp)
      refine ⟨le_refl p, rfl, htne, htws, ?_⟩
      exact tokensOK_mono _ (by omega)
        (ih last (p + t.length + g) ⟨fun y hy => hpairs y (by simp [hy]), hlast⟩)
lemma canonToks_head_start : ∀ (tg : List (Str × Nat)) (last : Str) (p : Nat),
    ∃ e2 t2 rest2, canonToks p tg last = ((p, e2), t2) :: rest2 := by
  intro tg last p
  rcases tg with _ | ⟨⟨t, g⟩, rest⟩
  · exact ⟨p + last.length, last, [], rfl⟩
  · exact ⟨p + t.length, t, canonToks (p + t.length + g) rest last, rfl⟩

lemma canonToks_tgPairs : ∀ (tg : List (Str × Nat)) (last : Str) (p : Nat),
    tgPairs (canonToks p tg last) = tg := by
  intro tg
  induction tg with
  | nil => intro last p; rfl
  | cons x tg2 ih =>
      intro last p
      obtain ⟨t, g⟩ := x
      obtain ⟨e2, t2, rest2, hc⟩ := canonToks_head_start tg2 last (p + t.length + g)
      show tgPairs (((p, p + t.length), t) :: canonToks (p + t.length + g) tg2 last) = _
      rw [hc, tgPairs, ← hc, ih last (p + t.length + g)]
      have : p + t.length + g - (p + t.length) = g := by omega
      rw [this]

lemma canonToks_tgLast : ∀ (tg : List (Str × Nat)) (last : Str) (p : Nat),
    tgLast (canonToks p tg last) = last := by
  intro tg
  induction tg with
  | nil => intro last p; rfl
  | cons x tg2 ih =>
      intro last p
      obtain ⟨t, g⟩ := x
      obtain ⟨e2, t2, rest2, hc⟩ := canonToks_head_start tg2 last (p + t.length + g)
      show tgLast (((p, p + t.length), t) :: canonToks (p + t.length + g) tg2 last) = _
      rw [hc, tgLast, ← hc, ih last (p + t.length + g)]

lemma canonToks_map_snd : ∀ (tg : List (Str × Nat)) (last : Str) (p : Nat),
    (canonToks p tg last).map (·.2) = tg.map (·.1) ++ [last] := by
  intro tg
  induction tg with
  | nil => intro last p; rfl
  | cons x tg2 ih =>
      intro last p
      obtain ⟨t, g⟩ := x
      show (((p, p + t.length), t) :: canonToks (p + t.length + g) tg2 last).map (·.2) = _
      rw [List.map_cons, ih last (p + t.length + g)]
      rfl

lemma map_snd_tgDecomp : ∀ (ts : List ((Nat × Nat) × Str)), ts ≠ [] →
    ts.map (·.2) = (tgPairs ts).map (·.1) ++ [tgLast ts]
  | [], h => absurd rfl h
  | [x], _ => by simp [tgPairs, tgLast]
  | x :: y :: rest, _ => by
      obtain ⟨⟨s, e⟩, t⟩ := x
      obtain ⟨⟨s2, e2⟩, t2⟩ := y
      rw [show tgPairs (((s, e), t) :: ((s2, e2), t2) :: rest) =
        (t, s2 - e) :: tgPairs (((s2, e2), t2) :: rest) from rfl]
      rw [show tgLast (((s, e), t) :: ((s2, e2), t2) :: rest) =
        tgLast (((s2, e2), t2) :: rest) from rfl]
      show t :: (((s2, e2), t2) :: rest).map (·.2) =
        t :: ((tgPairs (((s2, e2), t2) :: rest)).map (·.1) ++
          [tgLast (((s2, e2), t2) :: rest)])
      rw [map_snd_tgDecomp (((s2, e2), t2) :: rest) (by simp)]

lemma tokensOK_goodTG : ∀ (ts : List ((Nat × Nat) × Str)) (p : Nat),
    tokensOK p ts → ts ≠ [] → goodTG (tgPairs ts) (tgLast ts)
  | [], _, _, h => absurd rfl h
  | [x], p, hok, _ => by
      obtain ⟨⟨s, e⟩, t⟩ := x
      obtain ⟨_, _, htne, htws, _⟩ := hok
      exact ⟨by simp [tgPairs], htne, htws⟩
  | x :: y :: rest, p, hok, _ => by
      obtain ⟨⟨s, e⟩, t⟩ := x
      obtain ⟨⟨s2, e2⟩, t2⟩ := y
      obtain ⟨hps, he, htne, htws, hok2⟩ := hok
      have hgap : e + 1 ≤ s2 := hok2.1
      have hrest := tokensOK_goodTG (((s2, e2), t2) :: rest) (e + 1) hok2 (by simp)
      rw [show tgPairs (((s, e), t) :: ((s2, e2), t2) :: rest) =
        (t, s2 - e) :: tgPairs (((s2, e2), t2) :: rest) from rfl]
      rw [show tgLast (((s, e), t) :: ((s2, e2), t2) :: rest) =
        tgLast (((s2, e2), t2) :: rest) from rfl]
      refine ⟨?_, hrest.2⟩
      intro z hz
      rcases List.mem_cons.mp hz with h1 | h1
      · subst h1
        exact ⟨htne, htws, by omega⟩
      · exact hrest.1 z h1

lemma glueTG_ne_nil {tg : List (Str × Nat)} {last : Str} (hg : goodTG tg last) :
    glueTG tg last ≠ [] := by
  rcases tg with _ | ⟨⟨t, g⟩, rest⟩
  · exact hg.2.1
  · have := (hg.1 (t, g) (by simp)).1
    simp [glueTG]
    intro h
    exact absurd h this

lemma mem_glueTG : ∀ (tg : List (Str × Nat)) (last : Str) (c : Char),
    c ∈ glueTG tg last → c = ' ' ∨ (∃ x ∈ tg, c ∈ x.1) ∨ c ∈ last := by
  intro tg
  induction tg with
  | nil => intro last c hc; exact Or.inr (Or.inr hc)
  | cons x rest ih =>
      intro last c hc
      obtain ⟨t, g⟩ := x
      simp only [glueTG, List.append_assoc, List.mem_append] at hc
      rcases hc with h | h | h
      · exact Or.inr (Or.inl ⟨(t, g), by simp, h⟩)
      · exact Or.inl (List.eq_of_mem_replicate h)
      · rcases ih last c h with h1 | ⟨y, hy, hcy⟩ | h1
        · exact Or.inl h1
        · exact Or.inr (Or.inl ⟨y, by simp [hy], hcy⟩)
        · exact Or.inr (Or.inr h1)

lemma fieldText_eq_self {w : Nat} {v : Str} (h : w = v.length) : fieldText w v = v := by
  unfold fieldText actualWidth
  by_cases hv : v = sentinel
  · simp [hv]
  · simp [hv, ljust, h]

lemma spacingAfter_exact {s e s2 : Nat} {v : Str} (hw : e = s + v.length)
    (hgap : e + 1 ≤ s2) :
    spacingAfter s e s2 v = List.replicate (s2 - e) ' ' := by
  unfold spacingAfter actualWidth
  by_cases hv : v = sentinel
  · have hlen : v.length = 4 := by rw [hv]; rfl
    simp only [hv, if_true]
    congr 1
    omega
  · simp only [hv, if_false]
    congr 1
    have : max (e - s) v.length = v.length := by omega
    rw [this]
    omega

lemma needs_expansion_of_ok : ∀ (ts : List ((Nat × Nat) × Str)) (p : Nat), tokensOK p ts →
    needs_expansion (ts.map (·.1)) (ts.map (·.2)) =
      ts.any (fun x => decide (x.2 = sentinel)) := by
  intro ts
  induction ts with
  | nil => intro p _; rfl
  | cons x rest ih =>
      intro p hok
      obtain ⟨⟨s, e⟩, t⟩ := x
      obtain ⟨_, he, _, _, hok2⟩ := hok
      have htail := ih (e + 1) hok2
      unfold needs_expansion at htail ⊢
      simp only [List.map_cons, List.zip_cons_cons, List.any_cons, htail]
      congr 1
      have hno : ¬ (t.length > e - s) := by omega
      simp [hno]

lemma elseRebuild_eq_glue : ∀ (ts : List ((Nat × Nat) × Str)) (p : Nat),
    tokensOK p ts → ts ≠ [] →
    rstrip (List.flatten (elseParts (ts.map (·.1)) (ts.map (·.2)))) =
      glueTG (tgPairs ts) (tgLast ts)
  | [], _, _, h => absurd rfl h
  | [((s, e), t)], p, hok, _ => by
      obtain ⟨_, he, htne, htws, _⟩ := hok
      show rstrip (List.flatten (elseParts [(s, e)] [t])) = glueTG [] t
      rw [show elseParts [(s, e)] [t] = [fieldText (e - s) t] from rfl]
      simp only [List.flatten_cons, List.flatten_nil, List.append_nil]
      rw [fieldText_eq_self (by omega)]
      exact rstrip_eq_self_of_ws_free htne htws
  | ((s, e), t) :: (((s2, e2), t2) :: rest), p, hok, _ => by
      obtain ⟨hps, he, htne, htws, hok2⟩ := hok
      have hgap : e + 1 ≤ s2 := hok2.1
      have hrec := elseRebuild_eq_glue (((s2, e2), t2) :: rest) (e + 1) hok2 (by simp)
      have hgood := tokensOK_goodTG (((s2, e2), t2) :: rest) (e + 1) hok2 (by simp)
      simp only [List.map_cons] at hrec
      show rstrip (List.flatten (elseParts ((s, e) :: (s2, e2) :: rest.map (·.1))
        (t :: t2 :: rest.map (·.2)))) = glueTG (tgPairs (((s, e), t) :: ((s2, e2), t2) :: rest))
          (tgLast (((s, e), t) :: ((s2, e2), t2) :: rest))
      rw [show elseParts ((s, e) :: (s2, e2) :: rest.map (·.1)) (t :: t2 :: rest.map (·.2)) =
        fieldText (e - s) t :: spacingAfter s e s2 t ::
          elseParts ((s2, e2) :: rest.map (·.1)) (t2 :: rest.map (·.2)) from rfl]
      rw [show tgPairs (((s, e), t) :: ((s2, e2), t2) :: rest) =
        (t, s2 - e) :: tgPairs (((s2, e2), t2) :: rest) from rfl]
      rw [show tgLast (((s, e), t) :: ((s2, e2), t2) :: rest) =
        tgLast (((s2, e2), t2) :: rest) from rfl]
      simp only [List.flatten_cons]
      rw [fieldText_eq_self (by omega), spacingAfter_exact (by omega) hgap]
      rw [← List.append_assoc]
      rw [rstrip_append_of_ne_nil (t ++ List.replicate (s2 - e) ' ')
        (by rw [hrec]; exact glueTG_ne_nil hgood)]
      rw [hrec]
      simp [glueTG]

lemma ne_break_of_not_ws {c : Char} (h : isWs c = false) : c ≠ '\n' ∧ c ≠ '\r' := by
  constructor <;> intro h1 <;> subst h1 <;> simp [isWs] at h

lemma glueTG_breakfree {tg : List (Str × Nat)} {last : Str} (hg : goodTG tg last) :
    ∀ c ∈ glueTG tg last, c ≠ '\n' ∧ c ≠ '\r' := by
  intro c hc
  rcases mem_glueTG tg last c hc with h | ⟨x, hx, hcx⟩ | h
  · subst h
    refine ⟨by decide, by decide⟩
  · exact ne_break_of_not_ws ((hg.1 x hx).2.1 c hcx)
  · exact ne_break_of_not_ws (hg.2.2 c h)

lemma glueTG_blank_false {tg : List (Str × Nat)} {last : Str} (hg : goodTG tg last) :
    blankLine (glueTG tg last) = false := by
  rcases hb : blankLine (glueTG tg last) with _ | _
  · rfl
  · exfalso
    have hnil : pystrip (glueTG tg last) = [] := of_decide_eq_true hb
    have hall := pystrip_eq_nil_iff.mp hnil
    have h0 := tokCore_glueTG tg last 0 hg
    rw [tokCore_all_ws _ 0 hall] at h0
    obtain ⟨e2, t2, r2, hc⟩ := canonToks_head_start tg last 0
    rw [hc] at h0
    exact List.noConfusion h0

lemma rebuild_else_of_parse (raw : Str) (w : List Nat) (hne : tokCore 0 raw ≠ []) :
    rebuild_line_dynamic (parse_raw_line raw) (parse_raw_line raw).fields w false =
      glueTG (tgPairs (tokCore 0 raw)) (tgLast (tokCore 0 raw)) := by
  unfold rebuild_line_dynamic
  have hcond : ¬((parse_raw_line raw).fields = [] ∨ (parse_raw_line raw).spans = []) := by
    simp [parse_raw_line, hne]
  rw [if_neg hcond]
  simp only [Bool.false_and, Bool.false_eq_true, if_false]
  exact elseRebuild_eq_glue (tokCore 0 raw) 0 (tokCore_ok raw 0) hne

lemma any_map_snd (us : List ((Nat × Nat) × Str)) (p : Str → Bool) :
    (us.map (·.2)).any p = us.any (fun x => p x.2) := by
  induction us with
  | nil => rfl
  | cons x rest ih => simp [List.any_cons, ih]

lemma blank_false_of_tokCore_ne {l : Str} (h : tokCore 0 l ≠ []) :
    blankLine l = false := by
  rcases hb : blankLine l with _ | _
  · rfl
  · exact absurd (tokCore_all_ws l 0 (pystrip_eq_nil_iff.mp (of_decide_eq_true hb))) h

lemma rebuild_true_needs_of_parse (raw : Str) (w : List Nat) (hne : tokCore 0 raw ≠ [])
    (hexp : needs_expansion (parse_raw_line raw).spans (parse_raw_line raw).fields = true) :
    rebuild_line_dynamic (parse_raw_line raw) (parse_raw_line raw).fields w true =
      glueTG (tgPairs (tokCore 0 raw)) (tgLast (tokCore 0 raw)) := by
  unfold rebuild_line_dynamic
  have hcond : ¬((parse_raw_line raw).fields = [] ∨ (parse_raw_line raw).spans = []) := by
    simp [parse_raw_line, hne]
  rw [if_neg hcond]
  rw [show (true && !needs_expansion (parse_raw_line raw).spans (parse_raw_line raw).fields)
      = false by rw [hexp]; rfl]
  simp only [Bool.false_eq_true, if_false]
  exact elseRebuild_eq_glue (tokCore 0 raw) 0 (tokCore_ok raw 0) hne

lemma rebuild_true_fits_of_parse (raw : Str) (w : List Nat) (hne : tokCore 0 raw ≠ [])
    (hexp : needs_expansion (parse_raw_line raw).spans (parse_raw_line raw).fields = false) :
    rebuild_line_dynamic (parse_raw_line raw) (parse_raw_line raw).fields w true =
      rstrip raw := by
  unfold rebuild_line_dynamic
  have hcond : ¬((parse_raw_line raw).fields = [] ∨ (parse_raw_line raw).spans = []) := by
    simp [parse_raw_line, hne]
  rw [if_neg hcond]
  rw [show (true && !needs_expansion (parse_raw_line raw).spans (parse_raw_line raw).fields)
      = true by rw [hexp]; rfl]
  simp only [if_true]
  exact preserveRebuild_eq_rstrip raw

/-- The line a data row re-emits to in dynamic-expansion mode: its tokens
joined by their original gaps, leading indentation dropped. -/
def rowCanon (raw : Str) : Str :=
  glueTG (tgPairs (tokCore 0 raw)) (tgLast (tokCore 0 raw))

/-- The line the header re-emits to: the raw line right-trimmed when every
field still fits and none is the sentinel, otherwise the row-style rebuild. -/
def headCanon (raw : Str) : Str :=
  if needs_expansion (parse_raw_line raw).spans (parse_raw_line raw).fields then rowCanon raw
  else rstrip raw

/-- Round trip of one data row through the dynamic-expansion rebuilder: the
line it emits re-parses to the same field values and re-emits identically,
contains no line terminators, and is not blank. -/
lemma row_roundtrip (raw : Str) (hne : tokCore 0 raw ≠ []) :
    (∀ w, rebuild_line_dynamic (parse_raw_line raw) (parse_raw_line raw).fields w false =
      rowCanon raw) ∧
    (∀ w2, rebuild_line_dynamic (parse_raw_line (rowCanon raw))
      (parse_raw_line (rowCanon raw)).fields w2 false = rowCanon raw) ∧
    (parse_raw_line (rowCanon raw)).fields = (parse_raw_line raw).fields ∧
    (∀ c ∈ rowCanon raw, c ≠ '\n' ∧ c ≠ '\r') ∧ blankLine (rowCanon raw) = false := by
  have hgood : goodTG (tgPairs (tokCore 0 raw)) (tgLast (tokCore 0 raw)) :=
    tokensOK_goodTG (tokCore 0 raw) 0 (tokCore_ok raw 0) hne
  have htoksL := tokCore_glueTG (tgPairs (tokCore 0 raw)) (tgLast (tokCore 0 raw)) 0 hgood
  have hneL : tokCore 0 (rowCanon raw) ≠ [] := by
    unfold rowCanon
    rw [htoksL]
    obtain ⟨e2, t2, r2, hc⟩ := canonToks_head_start (tgPairs (tokCore 0 raw))
      (tgLast (tokCore 0 raw)) 0
    rw [hc]
    simp
  refine ⟨fun w => rebuild_else_of_parse raw w hne, ?_, ?_,
    glueTG_breakfree hgood, glueTG_blank_false hgood⟩
  · intro w2
    rw [show rowCanon raw = glueTG (tgPairs (tokCore 0 raw)) (tgLast (tokCore 0 raw))
      from rfl] at hneL
    show rebuild_line_dynamic (parse_raw_line (rowCanon raw))
      (parse_raw_line (rowCanon raw)).fields w2 false = rowCanon raw
    unfold rowCanon
    rw [rebuild_else_of_parse _ w2 hneL]
    rw [htoksL, canonToks_tgPairs, canonToks_tgLast]
  · show (tokCore 0 (rowCanon raw)).map (·.2) = (tokCore 0 raw).map (·.2)
    unfold rowCanon
    rw [htoksL, canonToks_map_snd, ← map_snd_tgDecomp (tokCore 0 raw) hne]

/-- Round trip of the header line through the spacing-preserving rebuilder:
the emitted line re-parses to the same field values and re-emits
identically, contains no line terminators, and is not blank. -/
lemma header_roundtrip (raw : Str) (hne : tokCore 0 raw ≠ [])
    (hbreak : ∀ c ∈ raw, c ≠ '\n' ∧ c ≠ '\r') :
    (∀ w, rebuild_line_dynamic (parse_raw_line raw) (parse_raw_line raw).fields w true =
      headCanon raw) ∧
    (∀ w2, rebuild_line_dynamic (parse_raw_line (headCanon raw))
      (parse_raw_line (headCanon raw)).fields w2 true = headCanon raw) ∧
    (parse_raw_line (headCanon raw)).fields = (parse_raw_line raw).fields ∧
    (∀ c ∈ headCanon raw, c ≠ '\n' ∧ c ≠ '\r') ∧ blankLine (headCanon raw) = false := by
  rcases hexp : needs_expansion (parse_raw_line raw).spans (parse_raw_line raw).fields
    with _ | _
  · -- no expansion needed: the raw header line is patched in place
    have hcanon : headCanon raw = rstrip raw := by
      unfold headCanon
      rw [hexp]
      simp
    rw [hcanon]
    have htoksH := tokCore_rstrip raw 0
    have hneH : tokCore 0 (rstrip raw) ≠ [] := by rw [htoksH]; exact hne
    have hfields : (parse_raw_line (rstrip raw)).fields = (parse_raw_line raw).fields := by
      show (tokCore 0 (rstrip raw)).map (·.2) = (tokCore 0 raw).map (·.2)
      rw [htoksH]
    have hspans : (parse_raw_line (rstrip raw)).spans = (parse_raw_line raw).spans := by
      show (tokCore 0 (rstrip raw)).map (·.1) = (tokCore 0 raw).map (·.1)
      rw [htoksH]
    refine ⟨fun w => rebuild_true_fits_of_parse raw w hne hexp, ?_, hfields, ?_, ?_⟩
    · intro w2
      rw [rebuild_true_fits_of_parse (rstrip raw) w2 hneH
        (by rw [hfields, hspans]; exact hexp), rstrip_idem]
    · intro c hc
      exact hbreak c (mem_rstrip hc)
    · exact blank_false_of_tokCore_ne hneH
  · -- expansion needed: rebuilt like a data row, and still needing expansion
    have hcanon : headCanon raw = rowCanon raw := by
      unfold headCanon
      rw [hexp]
      simp
    rw [hcanon]
    have hgood : goodTG (tgPairs (tokCore 0 raw)) (tgLast (tokCore 0 raw)) :=
      tokensOK_goodTG (tokCore 0 raw) 0 (tokCore_ok raw 0) hne
    have htoksL := tokCore_glueTG (tgPairs (tokCore 0 raw)) (tgLast (tokCore 0 raw)) 0 hgood
    have hneL : tokCore 0 (rowCanon raw) ≠ [] := by
      unfold rowCanon
      rw [htoksL]
      obtain ⟨e2, t2, r2, hc⟩ := canonToks_head_start (tgPairs (tokCore 0 raw))
        (tgLast (tokCore 0 raw)) 0
      rw [hc]
      simp
    have hfieldsL : (parse_raw_line (rowCanon raw)).fields = (parse_raw_line raw).fields := by
      show (tokCore 0 (rowCanon raw)).map (·.2) = (tokCore 0 raw).map (·.2)
      unfold rowCanon
      rw [htoksL, canonToks_map_snd, ← map_snd_tgDecomp (tokCore 0 raw) hne]
    have hanyL : needs_expansion (parse_raw_line (rowCanon raw)).spans
        (parse_raw_line (rowCanon raw)).fields = true := by
      have h1 := needs_expansion_of_ok (tokCore 0 raw) 0 (tokCore_ok raw 0)
      have h2 := needs_expansion_of_ok (tokCore 0 (rowCanon raw)) 0
        (by unfold rowCanon; rw [htoksL]; exact canonToks_ok _ _ 0 hgood)
      show needs_expansion ((tokCore 0 (rowCanon raw)).map (·.1))
        ((tokCore 0 (rowCanon raw)).map (·.2)) = true
      rw [h2]
      have hsnd : (tokCore 0 (rowCanon raw)).map (·.2) = (tokCore 0 raw).map (·.2) :=
        hfieldsL
      have hany : ∀ (us vs : List ((Nat × Nat) × Str)), us.map (·.2) = vs.map (·.2) →
          us.any (fun x => decide (x.2 = sentinel)) =
            vs.any (fun x => decide (x.2 = sentinel)) := by
        intro us vs huv
        have h3 : (us.map (·.2)).any (fun v => decide (v = sentinel)) =
            (vs.map (·.2)).any (fun v => decide (v = sentinel)) := by rw [huv]
        rw [any_map_snd us, any_map_snd vs] at h3
        exact h3
      rw [hany _ _ hsnd, ← h1]
      exact hexp
    refine ⟨fun w => by
        rw [rebuild_true_needs_of_parse raw w hne hexp]
        rfl,
      ?_, hfieldsL, glueTG_breakfree hgood, glueTG_blank_false hgood⟩
    intro w2
    rw [rebuild_true_needs_of_parse _ w2 hneL hanyL]
    unfold rowCanon
    rw [htoksL, canonToks_tgPairs, canonToks_tgLast]

lemma emitLines_cons (ls : Str) (l : Str) (rest : List Str) :
    emitLines ls (l :: rest) = l ++ (ls ++ emitLines ls rest) := by
  simp [emitLines, List.append_assoc]

lemma splitLinesAux_lf (acc : Str) (rest : Str) :
    splitLinesAux acc ('\n' :: rest) = acc.reverse :: splitLinesAux [] rest := by
  rcases rest with _ | ⟨d, cs⟩
  · simp [splitLinesAux, isBreak]
  · show splitLinesAux acc ('\n' :: d :: cs) = _
    simp only [splitLinesAux]
    rw [if_neg (by rintro ⟨h1, _⟩; exact absurd h1 (by decide)),
      if_pos (by simp [isBreak])]

lemma splitLinesAux_crlf (acc : Str) (rest : Str) :
    splitLinesAux acc ('\r' :: '\n' :: rest) = acc.reverse :: splitLinesAux [] rest := by
  simp [splitLinesAux]

lemma splitLinesAux_chunk : ∀ (line : Str) (acc : Str) (rest : Str),
    (∀ c ∈ line, c ≠ '\n' ∧ c ≠ '\r') → rest ≠ [] →
    splitLinesAux acc (line ++ rest) = splitLinesAux (line.reverse ++ acc) rest := by
  intro line
  induction line with
  | nil => intro acc rest _ _; simp
  | cons c line2 ih =>
      intro acc rest hbf hrest
      have hc := hbf c (by simp)
      rcases hlr : line2 ++ rest with _ | ⟨d, cs⟩
      · rcases List.append_eq_nil.mp hlr with ⟨_, h2⟩
        exact absurd h2 hrest
      · show splitLinesAux acc (c :: (line2 ++ rest)) = _
        rw [hlr]
        simp only [splitLinesAux]
        rw [if_neg (by rintro ⟨h1, _⟩; exact hc.2 h1),
          if_neg (by simp [isBreak, hc.1, hc.2])]
        rw [← hlr, ih (c :: acc) rest (fun x hx => hbf x (by simp [hx])) hrest]
        congr 1
        simp

lemma splitLines_emit_lf : ∀ (lines : List Str),
    (∀ l ∈ lines, ∀ c ∈ l, c ≠ '\n' ∧ c ≠ '\r') →
    splitLines (emitLines lfStr lines) = lines := by
  intro lines
  induction lines with
  | nil => intro _; rfl
  | cons l rest ih =>
      intro hbf
      rw [emitLines_cons]
      unfold splitLines
      rw [show lfStr ++ emitLines lfStr rest = '\n' :: emitLines lfStr rest from rfl]
      rw [splitLinesAux_chunk l [] ('\n' :: emitLines lfStr rest)
        (hbf l (by simp)) (by simp)]
      rw [splitLinesAux_lf]
      have hih := ih (fun x hx => hbf x (by simp [hx]))
      unfold splitLines at hih
      rw [hih]
      simp

lemma splitLines_emit_crlf : ∀ (lines : List Str),
    (∀ l ∈ lines, ∀ c ∈ l, c ≠ '\n' ∧ c ≠ '\r') →
    splitLines (emitLines crlfStr lines) = lines := by
  intro lines
  induction lines with
  | nil => intro _; rfl
  | cons l rest ih =>
      intro hbf
      rw [emitLines_cons]
      unfold splitLines
      rw [show crlfStr ++ emitLines crlfStr rest = '\r' :: '\n' :: emitLines crlfStr rest
        from rfl]
      rw [splitLinesAux_chunk l [] ('\r' :: '\n' :: emitLines crlfStr rest)
        (hbf l (by simp)) (by simp)]
      rw [splitLinesAux_crlf]
      have hih := ih (fun x hx => hbf x (by simp [hx]))
      unfold splitLines at hih
      rw [hih]
      simp

lemma containsCRLF_of_no_cr : ∀ (t : Str), (∀ c ∈ t, c ≠ '\r') → containsCRLF t = false
  | [], _ => rfl
  | [_], _ => rfl
  | c :: d :: cs, h => by
      simp only [containsCRLF]
      rw [containsCRLF_of_no_cr (d :: cs) (fun x hx => h x (by
        rcases List.mem_cons.mp hx with h1 | h1
        · simp [h1]
        · simp [h1]))]
      have : (c == '\r') = false := by
        have := h c (by simp)
        simpa using this
      simp [this]

lemma containsCRLF_append_crlf (xs ys : Str) :
    containsCRLF (xs ++ '\r' :: '\n' :: ys) = true := by
  induction xs with
  | nil => simp [containsCRLF]
  | cons x xs2 ih =>
      rcases xs2 with _ | ⟨y, zs⟩
      · show containsCRLF (x :: '\r' :: '\n' :: ys) = true
        simp [containsCRLF]
      · show containsCRLF (x :: y :: (zs ++ '\r' :: '\n' :: ys)) = true
        simp only [containsCRLF]
        rw [show y :: (zs ++ '\r' :: '\n' :: ys) = (y :: zs) ++ '\r' :: '\n' :: ys from rfl,
          ih]
        simp

lemma replaceCRLF_chunk : ∀ (line : Str), (∀ c ∈ line, c ≠ '\r') → ∀ (rest : Str),
    replaceCRLF (line ++ '\r' :: '\n' :: rest) = line ++ '\n' :: replaceCRLF rest := by
  intro line
  induction line with
  | nil =>
      intro _ rest
      show replaceCRLF ('\r' :: '\n' :: rest) = '\n' :: replaceCRLF rest
      simp [replaceCRLF]
  | cons c line2 ih =>
      intro h rest
      rcases hlr : line2 ++ '\r' :: '\n' :: rest with _ | ⟨d, cs⟩
      · simp at hlr
      · show replaceCRLF (c :: (line2 ++ '\r' :: '\n' :: rest)) = _
        rw [hlr]
        simp only [replaceCRLF]
        rw [if_neg (by rintro ⟨h1, _⟩; exact (h c (by simp)) h1)]
        rw [← hlr, ih (fun x hx => h x (by simp [hx])) rest]
        rfl

lemma replaceCRLF_emit (lines : List Str)
    (hbf : ∀ l ∈ lines, ∀ c ∈ l, c ≠ '\n' ∧ c ≠ '\r') :
    replaceCRLF (emitLines crlfStr lines) = emitLines lfStr lines := by
  induction lines with
  | nil => rfl
  | cons l rest ih =>
      rw [emitLines_cons, emitLines_cons]
      rw [show crlfStr ++ emitLines crlfStr rest = '\r' :: '\n' :: emitLines crlfStr rest
        from rfl]
      rw [replaceCRLF_chunk l (fun c hc => (hbf l (by simp) c hc).2) (emitLines crlfStr rest)]
      rw [ih (fun x hx => hbf x (by simp [hx]))]
      rfl

lemma mem_emitLines {c : Char} {ls : Str} {lines : List Str}
    (h : c ∈ emitLines ls lines) : c ∈ ls ∨ ∃ l ∈ lines, c ∈ l := by
  unfold emitLines at h
  rcases List.mem_flatten.mp h with ⟨piece, hpiece, hcp⟩
  rcases List.mem_map.mp hpiece with ⟨l, hl, hlp⟩
  subst hlp
  rcases List.mem_append.mp hcp with h1 | h1
  · exact Or.inr ⟨l, hl, h1⟩
  · exact Or.inl h1

lemma lstrip_rstrip (l : Str) : lstrip (rstrip (lstrip l)) = rstrip (lstrip l) := by
  rcases hy : rstrip (lstrip l) with _ | ⟨c, z⟩
  · rfl
  · obtain ⟨ys, hdec, _⟩ := exists_rstrip_decomp (lstrip l)
    have hhead : (lstrip l).head? = some c := by
      rw [hdec, hy]
      rfl
    have hws : isWs c = false := by
      have h0 := List.head?_dropWhile_not isWs l
      unfold lstrip at hhead
      rw [hhead] at h0
      exact h0
    show List.dropWhile isWs (c :: z) = c :: z
    rw [List.dropWhile_cons, hws]
    simp

lemma pystrip_idem (l : Str) : pystrip (pystrip l) = pystrip l := by
  show rstrip (lstrip (rstrip (lstrip l))) = rstrip (lstrip l)
  rw [lstrip_rstrip, rstrip_idem]

lemma blankLine_nil : blankLine ([] : Str) = true := rfl

lemma takeWhile_blank_front (n : Nat) (H : Str) (R : List Str)
    (hH : blankLine H = false) :
    (List.replicate n ([] : Str) ++ H :: R).takeWhile blankLine = List.replicate n [] ∧
    (List.replicate n ([] : Str) ++ H :: R).dropWhile blankLine = H :: R := by
  induction n with
  | zero =>
      constructor
      · simp [List.takeWhile_cons, hH]
      · simp [List.dropWhile_cons, hH]
  | succ n ih =>
      rw [List.replicate_succ]
      constructor
      · rw [List.cons_append, List.takeWhile_cons, blankLine_nil]
        simp only [if_true]
        rw [ih.1]
      · rw [List.cons_append, List.dropWhile_cons, blankLine_nil]
        simp only [if_true]
        exact ih.2

lemma load_emit (v H : Str) (R : List Str) (n : Nat) (ls : Str)
    (hls : ls = lfStr ∨ ls = crlfStr)
    (hbfv : ∀ c ∈ v, c ≠ '\n' ∧ c ≠ '\r')
    (hbfH : ∀ c ∈ H, c ≠ '\n' ∧ c ≠ '\r')
    (hbfR : ∀ l ∈ R, ∀ c ∈ l, c ≠ '\n' ∧ c ≠ '\r')
    (hv : py_startswith str2DA (pystrip v) = true)
    (hvs : pystrip v = v)
    (hH : blankLine H = false)
    (hR : ∀ l ∈ R, blankLine l = false) :
    load_2da (emitLines ls (v :: (List.replicate n [] ++ H :: R))) =
      some { header_fields := (parse_raw_line H).fields
           , row_fields := R.map (fun l => (parse_raw_line l).fields)
           , header_format := parse_raw_line H
           , row_formats := R.map parse_raw_line
           , version_line := v
           , empty_lines_before_header := n
           , linesep := ls } := by
  have hbfall : ∀ l ∈ v :: (List.replicate n ([] : Str) ++ H :: R), ∀ c ∈ l,
      c ≠ '\n' ∧ c ≠ '\r' := by
    intro l hl
    rcases List.mem_cons.mp hl with h1 | h1
    · subst h1; exact hbfv
    · rcases List.mem_append.mp h1 with h2 | h2
      · have := List.eq_of_mem_replicate h2
        subst this
        intro c hc
        simp at hc
      · rcases List.mem_cons.mp h2 with h3 | h3
        · subst h3; exact hbfH
        · exact hbfR l h3
  have hfilter : (H :: R).filter (fun l => !(blankLine l)) = H :: R := by
    apply List.filter_eq_self.mpr
    intro a ha
    rcases List.mem_cons.mp ha with h1 | h1
    · subst h1; simp [hH]
    · simp [hR a h1]
  have hv2 : py_startswith str2DA v = true := by rw [← hvs]; exact hv
  rcases hls with hls | hls <;> subst hls
  · -- LF terminator
    have hnocr : containsCRLF (emitLines lfStr (v :: (List.replicate n [] ++ H :: R))) = false := by
      apply containsCRLF_of_no_cr
      intro c hc
      rcases mem_emitLines hc with h1 | ⟨l, hl, hcl⟩
      · intro h2
        subst h2
        simp [lfStr] at h1
      · exact (hbfall l hl c hcl).2
    have hsplit := splitLines_emit_lf (v :: (List.replicate n [] ++ H :: R)) hbfall
    unfold load_2da
    rw [hnocr]
    simp only [Bool.false_eq_true, if_false]
    rw [hsplit]
    unfold load_lines
    simp only [hv, hvs, hv2, if_true]
    rw [(takeWhile_blank_front n H R hH).1, (takeWhile_blank_front n H R hH).2, hfilter]
    simp [List.map_map]
  · -- CRLF terminator
    have hcr : containsCRLF (emitLines crlfStr (v :: (List.replicate n [] ++ H :: R))) = true := by
      rw [emitLines_cons]
      rw [show crlfStr ++ emitLines crlfStr (List.replicate n [] ++ H :: R) =
        '\r' :: '\n' :: emitLines crlfStr (List.replicate n [] ++ H :: R) from rfl]
      exact containsCRLF_append_crlf v _
    have hrepl := replaceCRLF_emit (v :: (List.replicate n [] ++ H :: R)) hbfall
    have hsplit := splitLines_emit_lf (v :: (List.replicate n [] ++ H :: R)) hbfall
    unfold load_2da
    rw [hcr]
    simp only [if_true]
    rw [hrepl, hsplit]
    unfold load_lines
    simp only [hv, hvs, hv2, if_true]
    rw [(takeWhile_blank_front n H R hH).1, (takeWhile_blank_front n H R hH).2, hfilter]
    simp [List.map_map]

lemma splitLinesAux_breakfree : ∀ (t : Str) (acc : Str),
    (∀ c ∈ acc, c ≠ '\n' ∧ c ≠ '\r') →
    ∀ l ∈ splitLinesAux acc t, ∀ c ∈ l, c ≠ '\n' ∧ c ≠ '\r'
  | [], acc, hacc => by
      intro l hl
      rw [show splitLinesAux acc [] = if acc = [] then [] else [acc.reverse] from rfl] at hl
      by_cases h : acc = []
      · rw [if_pos h] at hl
        simp at hl
      · rw [if_neg h] at hl
        simp only [List.mem_singleton] at hl
        subst hl
        intro c hc
        exact hacc c (List.mem_reverse.mp hc)
  | [x], acc, hacc => by
      intro l hl
      rw [show splitLinesAux acc [x] =
        if isBreak x then [acc.reverse] else [(x :: acc).reverse] from rfl] at hl
      by_cases hb : isBreak x = true
      · rw [if_pos hb] at hl
        simp only [List.mem_singleton] at hl
        subst hl
        intro c hc
        exact hacc c (List.mem_reverse.mp hc)
      · rw [if_neg hb] at hl
        simp only [List.mem_singleton] at hl
        subst hl
        intro c hc
        rw [List.mem_reverse] at hc
        rcases List.mem_cons.mp hc with h1 | h1
        · subst h1
          simpa [isBreak] using hb
        · exact hacc c h1
  | c0 :: d :: cs, acc, hacc => by
      intro l hl
      rw [show splitLinesAux acc (c0 :: d :: cs) =
        if c0 = '\r' ∧ d = '\n' then acc.reverse :: splitLinesAux [] cs
        else if isBreak c0 then acc.reverse :: splitLinesAux [] (d :: cs)
        else splitLinesAux (c0 :: acc) (d :: cs) from rfl] at hl
      by_cases h1 : c0 = '\r' ∧ d = '\n'
      · rw [if_pos h1] at hl
        rcases List.mem_cons.mp hl with h2 | h2
        · subst h2
          intro c hc
          exact hacc c (List.mem_reverse.mp hc)
        · exact splitLinesAux_breakfree cs [] (by simp) l h2
      · rw [if_neg h1] at hl
        by_cases h2 : isBreak c0 = true
        · rw [if_pos h2] at hl
          rcases List.mem_cons.mp hl with h3 | h3
          · subst h3
            intro c hc
            exact hacc c (List.mem_reverse.mp hc)
          · exact splitLinesAux_breakfree (d :: cs) [] (by simp) l h3
        · rw [if_neg h2] at hl
          refine splitLinesAux_breakfree (d :: cs) (c0 :: acc) ?_ l hl
          intro c hc
          rcases List.mem_cons.mp hc with h3 | h3
          · subst h3
            simpa [isBreak] using h2
          · exact hacc c h3

lemma splitLines_breakfree {t : Str} :
    ∀ l ∈ splitLines t, ∀ c ∈ l, c ≠ '\n' ∧ c ≠ '\r' :=
  splitLinesAux_breakfree t [] (by simp)

lemma load_lines_inv {lines : List Str} {ls : Str} {d : TwoDAData}
    (hbf : ∀ l ∈ lines, ∀ c ∈ l, c ≠ '\n' ∧ c ≠ '\r')
    (h : load_lines lines ls = some d) :
    d.linesep = ls ∧
    pystrip d.version_line = d.version_line ∧
    py_startswith str2DA (pystrip d.version_line) = true ∧
    (∀ c ∈ d.version_line, c ≠ '\n' ∧ c ≠ '\r') ∧
    ∃ (Hraw : Str) (Rraws : List Str),
      d.header_format = parse_raw_line Hraw ∧
      d.header_fields = (parse_raw_line Hraw).fields ∧
      d.row_formats = Rraws.map parse_raw_line ∧
      d.row_fields = Rraws.map (fun l => (parse_raw_line l).fields) ∧
      blankLine Hraw = false ∧ (∀ l ∈ Rraws, blankLine l = false) ∧
      (∀ c ∈ Hraw, c ≠ '\n' ∧ c ≠ '\r') ∧
      (∀ l ∈ Rraws, ∀ c ∈ l, c ≠ '\n' ∧ c ≠ '\r') := by
  unfold load_lines at h
  -- name the version pair
  have hmain : ∀ (v : Str) (tail : List Str),
      pystrip v = v → py_startswith str2DA (pystrip v) = true →
      (∀ c ∈ v, c ≠ '\n' ∧ c ≠ '\r') →
      (∀ l ∈ tail, ∀ c ∈ l, c ≠ '\n' ∧ c ≠ '\r') →
      (match ((tail.dropWhile blankLine).filter (fun l => !(blankLine l))).map parse_raw_line with
       | [] => none
       | hfmt :: rfmts =>
          some { header_fields := hfmt.fields
               , row_fields := rfmts.map (·.fields)
               , header_format := hfmt
               , row_formats := rfmts
               , version_line := v
               , empty_lines_before_header := (tail.takeWhile blankLine).length
               , linesep := ls }) = some d →
      d.linesep = ls ∧
      pystrip d.version_line = d.version_line ∧
      py_startswith str2DA (pystrip d.version_line) = true ∧
      (∀ c ∈ d.version_line, c ≠ '\n' ∧ c ≠ '\r') ∧
      ∃ (Hraw : Str) (Rraws : List Str),
        d.header_format = parse_raw_line Hraw ∧
        d.header_fields = (parse_raw_line Hraw).fields ∧
        d.row_formats = Rraws.map parse_raw_line ∧
        d.row_fields = Rraws.map (fun l => (parse_raw_line l).fields) ∧
        blankLine Hraw = false ∧ (∀ l ∈ Rraws, blankLine l = false) ∧
        (∀ c ∈ Hraw, c ≠ '\n' ∧ c ≠ '\r') ∧
        (∀ l ∈ Rraws, ∀ c ∈ l, c ≠ '\n' ∧ c ≠ '\r') := by
    intro v tail hvs hv hbv hbt hmatch
    rcases hfl : ((tail.dropWhile blankLine).filter (fun l => !(blankLine l))) with _ | ⟨Hraw, Rraws⟩
    · rw [hfl] at hmatch
      simp at hmatch
    · rw [hfl] at hmatch
      simp only [List.map_cons, Option.some_inj] at hmatch
      subst hmatch
      have hmemH : Hraw ∈ (tail.dropWhile blankLine).filter (fun l => !(blankLine l)) := by
        rw [hfl]; simp
      have hmemR : ∀ l ∈ Rraws, l ∈ (tail.dropWhile blankLine).filter (fun l => !(blankLine l)) := by
        intro l hl
        rw [hfl]
        simp [hl]
      have hblankH : blankLine Hraw = false := by
        have := (List.mem_filter.mp hmemH).2
        simpa using this
      have hblankR : ∀ l ∈ Rraws, blankLine l = false := by
        intro l hl
        have := (List.mem_filter.mp (hmemR l hl)).2
        simpa using this
      have hsub : ∀ l, l ∈ (tail.dropWhile blankLine).filter (fun l => !(blankLine l)) → l ∈ tail := by
        intro l hl
        exact (List.dropWhile_sublist blankLine).subset (List.mem_of_mem_filter hl)
      refine ⟨rfl, hvs, hv, hbv, Hraw, Rraws, rfl, rfl, rfl, by simp, hblankH, hblankR,
        hbt Hraw (hsub Hraw hmemH), fun l hl => hbt l (hsub l (hmemR l hl))⟩
  rcases hlines : lines with _ | ⟨l0, rest⟩
  · rw [hlines] at h
    simp only [] at h
    exact absurd h (by simp [load_lines])
  · rw [hlines] at h
    by_cases hsw : py_startswith str2DA (pystrip l0) = true
    · simp only [hsw, if_true] at h
      refine hmain (pystrip l0) rest (pystrip_idem l0) (by rw [pystrip_idem]; exact hsw)
        ?_ ?_ h
      · intro c hc
        exact hbf l0 (by rw [hlines]; simp) c (mem_pystrip hc)
      · intro l hl c hc
        exact hbf l (by rw [hlines]; simp [hl]) c hc
    · simp only [hsw, if_false] at h
      refine hmain default2DA (l0 :: rest) (by decide) (by decide) (by decide) ?_ h
      intro l hl c hc
      exact hbf l (by rw [hlines]; exact hl) c hc
/-- C1: for every file text whose load succeeds, the saved bytes, loaded and
saved again unchanged, reproduce exactly the first save's bytes: the
reformatting pass is idempotent after one application. -/
theorem c1_idempotent_reformat (text : Str) (d : TwoDAData)
    (h : load_2da text = some d) :
    ∃ d2, load_2da (save_2da d) = some d2 ∧ save_2da d2 = save_2da d := by
  unfold load_2da at h
  have hinv := load_lines_inv (fun l hl => splitLines_breakfree l hl) h
  obtain ⟨hlseq, hvs, hv, hbv, Hraw, Rraws, hhfmt, hhfields, hrfmts, hrfields,
    hblankH, hblankR, hbfH, hbfR⟩ := hinv
  have hlsor : d.linesep = lfStr ∨ d.linesep = crlfStr := by
    rw [hlseq]
    by_cases hcr : containsCRLF text = true
    · rw [if_pos hcr]; exact Or.inr rfl
    · rw [if_neg hcr]; exact Or.inl rfl
  have hneH : tokCore 0 Hraw ≠ [] := by
    rcases blankLine_eq_false_iff.mp hblankH with ⟨c, hc, hw⟩
    exact tokCore_ne_nil Hraw 0 ⟨c, hc, hw⟩
  have hneR : ∀ l ∈ Rraws, tokCore 0 l ≠ [] := by
    intro l hl
    rcases blankLine_eq_false_iff.mp (hblankR l hl) with ⟨c, hc, hw⟩
    exact tokCore_ne_nil l 0 ⟨c, hc, hw⟩
  obtain ⟨hH1, hH2, hHfields, hHbf, hHblank⟩ := header_roundtrip Hraw hneH hbfH
  have hrow := fun l (hl : l ∈ Rraws) => row_roundtrip l (hneR l hl)
  have hsave1 : save_2da d = emitLines d.linesep (d.version_line ::
      (List.replicate d.empty_lines_before_header [] ++
        headCanon Hraw :: Rraws.map rowCanon)) := by
    show emitLines d.linesep (d.version_line ::
        List.replicate d.empty_lines_before_header [] ++
        [rebuild_line_dynamic d.header_format d.header_fields
          (calculate_column_widths d).1 true] ++
        (d.row_formats.zip d.row_fields).map
          (fun fr => rebuild_line_dynamic fr.1 fr.2 (calculate_column_widths d).2 false)) = _
    have hrows : (Rraws.map (fun a => (parse_raw_line a, (parse_raw_line a).fields))).map
        (fun fr => rebuild_line_dynamic fr.1 fr.2 (calculate_column_widths d).2 false) =
        Rraws.map rowCanon := by
      rw [List.map_map]
      apply List.map_congr_left
      intro a ha
      exact (hrow a ha).1 (calculate_column_widths d).2
    rw [hhfmt, hhfields, hrfmts, hrfields, hH1, List.zip_map', hrows]
    simp [List.append_assoc]
  set d2 : TwoDAData :=
      { header_fields := (parse_raw_line (headCanon Hraw)).fields
      , row_fields := (Rraws.map rowCanon).map (fun l => (parse_raw_line l).fields)
      , header_format := parse_raw_line (headCanon Hraw)
      , row_formats := (Rraws.map rowCanon).map parse_raw_line
      , version_line := d.version_line
      , empty_lines_before_header := d.empty_lines_before_header
      , linesep := d.linesep } with hd2
  have hload2 : load_2da (save_2da d) = some d2 := by
    rw [hsave1, hd2]
    apply load_emit _ _ _ _ _ hlsor hbv hHbf _ hv hvs hHblank
    · intro l hl
      rcases List.mem_map.mp hl with ⟨a, ha, hla⟩
      subst hla
      exact (hrow a ha).2.2.2.2
    · intro l hl c hc
      rcases List.mem_map.mp hl with ⟨a, ha, hla⟩
      subst hla
      exact (hrow a ha).2.2.2.1 c hc
  refine ⟨d2, hload2, ?_⟩
  have hsave2 : save_2da d2 = emitLines d.linesep (d.version_line ::
      (List.replicate d.empty_lines_before_header [] ++
        headCanon Hraw :: Rraws.map rowCanon)) := by
    show emitLines d.linesep (d.version_line ::
        List.replicate d.empty_lines_before_header [] ++
        [rebuild_line_dynamic (parse_raw_line (headCanon Hraw))
          (parse_raw_line (headCanon Hraw)).fields (calculate_column_widths d2).1 true] ++
        ((((Rraws.map rowCanon).map parse_raw_line).zip
          ((Rraws.map rowCanon).map (fun l => (parse_raw_line l).fields))).map
          (fun fr => rebuild_line_dynamic fr.1 fr.2 (calculate_column_widths d2).2 false))) = _
    have hrows2 : ((Rraws.map rowCanon).map
        (fun a => (parse_raw_line a, (parse_raw_line a).fields))).map
        (fun fr => rebuild_line_dynamic fr.1 fr.2 (calculate_column_widths d2).2 false) =
        Rraws.map rowCanon := by
      rw [List.map_map, List.map_map]
      apply List.map_congr_left
      intro a ha
      exact (hrow a ha).2.1 (calculate_column_widths d2).2
    rw [hH2, List.zip_map', hrows2]
    simp [List.append_assoc]
  rw [hsave2, hsave1]

lemma foldl_max_ge_init {α : Type} (f : α → Nat) (l : List α) (init : Nat) :
    init ≤ l.foldl (fun m x => max m (f x)) init := by
  induction l generalizing init with
  | nil => exact le_refl init
  | cons x xs ih =>
      calc init ≤ max init (f x) := le_max_left _ _
        _ ≤ xs.foldl (fun m x => max m (f x)) (max init (f x)) := ih (max init (f x))

lemma foldl_max_ge {α : Type} (f : α → Nat) (l : List α) (a : α) (ha : a ∈ l)
    (init : Nat) : f a ≤ l.foldl (fun m x => max m (f x)) init := by
  induction l generalizing init with
  | nil => simp at ha
  | cons x xs ih =>
      rcases List.mem_cons.mp ha with h1 | h1
      · subst h1
        calc f a ≤ max init (f a) := le_max_right _ _
          _ ≤ xs.foldl (fun m x => max m (f x)) (max init (f a)) :=
            foldl_max_ge_init f xs _
      · exact ih h1 (max init (f x))

lemma getD_map_of_lt {α β : Type} (f : α → β) (l : List α) (i : Nat) (dA : α) (dB : β)
    (hi : i < l.length) : (l.map f).getD i dB = f (l.getD i dA) := by
  rw [List.getD_eq_getElem?_getD, List.getD_eq_getElem?_getD, List.getElem?_map]
  rcases h : l[i]? with _ | a
  · rw [List.getElem?_eq_none_iff] at h
    omega
  · simp

lemma getD_map_range (f : Nat → Nat) (n i : Nat) (hi : i < n) :
    ((List.range n).map f).getD i 0 = f i := by
  rw [List.getD_eq_getElem?_getD, List.getElem?_map, List.getElem?_range hi]
  rfl

lemma maxRowLen_ge {rows : List (List Str)} {row : List Str} (h : row ∈ rows) :
    row.length ≤ maxRowLen rows :=
  foldl_max_ge List.length rows row h 0

lemma colWidth_ge {rows : List (List Str)} {row : List Str} (h : row ∈ rows) (i : Nat) :
    (row.getD i []).length ≤ colWidth rows i :=
  foldl_max_ge (fun r => (r.getD i []).length) rows row h 0

/-- Example document for the width claims: header labels `Label` (5 chars)
and `Header` (6 chars); one row with index `0`, a 7-character value under
`Label` and a 1-character value under `Header`. -/
def docC4 : TwoDAData :=
  { header_fields := [['L', 'a', 'b', 'e', 'l'], ['H', 'e', 'a', 'd', 'e', 'r']]
  , row_fields := [[['0'], ['X', 'X', 'X', 'X', 'X', 'X', 'X'], ['x']]]
  , header_format := parse_raw_line ['L', 'a', 'b', 'e', 'l', ' ', ' ',
      'H', 'e', 'a', 'd', 'e', 'r']
  , row_formats := [parse_raw_line ['0', ' ', 'a', ' ', 'b']]
  , version_line := default2DA
  , empty_lines_before_header := 0
  , linesep := lfStr }

/-- C4 counterexample: on `docC4` the resolver returns header widths
`[5, 6]` and data widths `[1, 7, 1]`.  The claim demands, for every column,
a width of at least the maximum of the header-label length and the longest
field value.  Column `Label` needs at least `max 5 7 = 7`, but the header
vector gives it `5`; column `Header` needs at least `max 6 1 = 6`, but the
data vector gives its row position `1`.  So neither returned vector
satisfies the claimed bound. -/
theorem c4_width_monotonicity_cex :
    calculate_column_widths docC4 = ([5, 6], [1, 7, 1]) ∧
    ¬ 7 ≤ (calculate_column_widths docC4).1.getD 0 0 ∧
    ¬ 6 ≤ (calculate_column_widths docC4).2.getD 2 0 := by decide

/-- C4 amended: the resolver guarantees only the one-sided bounds: each
header width covers its header-label length, and each data width covers
every current field value at that row position; header widths ignore row
content and data widths ignore header labels, and a row position with no
data gets no width at all. -/
theorem c4_width_monotonicity_amended (d : TwoDAData)
    (hh : d.header_fields ≠ []) (hr : d.row_fields ≠ []) :
    (∀ j, j < d.header_fields.length →
      (d.header_fields.getD j []).length ≤ (calculate_column_widths d).1.getD j 0) ∧
    (∀ row, row ∈ d.row_fields → ∀ i, i < row.length →
      (row.getD i []).length ≤ (calculate_column_widths d).2.getD i 0) := by
  unfold calculate_column_widths
  rw [if_neg (by simp [hh, hr])]
  constructor
  · intro j hj
    rw [getD_map_of_lt List.length d.header_fields j [] 0 hj]
  · intro row hrow i hi
    have hin : i < maxRowLen d.row_fields := by
      have := maxRowLen_ge hrow
      omega
    show (row.getD i []).length ≤
      ((List.range (maxRowLen d.row_fields)).map (colWidth d.row_fields)).getD i 0
    rw [getD_map_range (colWidth d.row_fields) _ i hin]
    exact colWidth_ge hrow i

/-- Witness for the amended C4 theorem at the concrete document. -/
theorem c4_width_monotonicity_amended_witness :
    (∀ j, j < docC4.header_fields.length →
      (docC4.header_fields.getD j []).length ≤ (calculate_column_widths docC4).1.getD j 0) ∧
    (∀ row, row ∈ docC4.row_fields → ∀ i, i < row.length →
      (row.getD i []).length ≤ (calculate_column_widths docC4).2.getD i 0) :=
  c4_width_monotonicity_amended docC4 (by decide) (by decide)

lemma newColNames_length (cnt : Nat) : (newColNames cnt).length = cnt := by
  unfold newColNames
  by_cases h : cnt = 1
  · simp [h]
  · simp [h]

/-- One structural column edit on the table model. -/
inductive ColOp where
  | insert (column count : Int)
  | remove (column count : Int)

/-- Apply one column edit, keeping the resulting model state. -/
def applyColOp (m : TableModel) : ColOp → TableModel
  | ColOp.insert c n => (insertColumns m c n).2
  | ColOp.remove c n => (removeColumns m c n).2

/-- Apply a sequence of column edits left to right. -/
def applyColOps (m : TableModel) (ops : List ColOp) : TableModel :=
  ops.foldl applyColOp m

lemma insertColumns_rect (m : TableModel) (c n : Int)
    (h : ∀ r ∈ m.rows, r.length = m.header.length) :
    ∀ r ∈ (insertColumns m c n).2.rows, r.length = (insertColumns m c n).2.header.length := by
  unfold insertColumns
  by_cases hn : n ≤ 0
  · rw [if_pos hn]
    exact h
  · rw [if_neg hn]
    intro r hr
    simp only at hr ⊢
    rcases List.mem_map.mp hr with ⟨r0, hr0, hreq⟩
    subst hreq
    have hcol : (min (max c 0) (m.header.length : Int)).toNat ≤ m.header.length := by omega
    have hlen0 := h r0 hr0
    simp only [List.length_append, List.length_take, List.length_drop,
      List.length_replicate, newColNames_length, padTo]
    omega

lemma removeColumns_rect (m : TableModel) (c n : Int)
    (h : ∀ r ∈ m.rows, r.length = m.header.length) :
    ∀ r ∈ (removeColumns m c n).2.rows, r.length = (removeColumns m c n).2.header.length := by
  unfold removeColumns
  by_cases hn : n ≤ 0
  · rw [if_pos hn]
    exact h
  · rw [if_neg hn]
    by_cases hc : c < 0 ∨ (m.header.length : Int) ≤ c
    · rw [if_pos hc]
      exact h
    · rw [if_neg hc]
      intro r hr
      simp only at hr ⊢
      rcases List.mem_map.mp hr with ⟨r0, hr0, hreq⟩
      subst hreq
      have hlen0 := h r0 hr0
      simp only [padTo, List.length_append, List.length_take, List.length_drop,
        List.length_replicate]
      omega

/-- C5: starting from a rectangular table (every row as long as the model
header, whose first slot is the index column added by the file manager, so
this length is the file-header column count plus one), any finite sequence
of column insertions and removals leaves every row exactly as long as the
current header. -/
theorem c5_shape_invariant (m : TableModel) (ops : List ColOp)
    (h : ∀ r ∈ m.rows, r.length = m.header.length) :
    ∀ r ∈ (applyColOps m ops).rows, r.length = (applyColOps m ops).header.length := by
  induction ops generalizing m with
  | nil => exact h
  | cons op rest ih =>
      show ∀ r ∈ (applyColOps (applyColOp m op) rest).rows,
        r.length = (applyColOps (applyColOp m op) rest).header.length
      apply ih
      cases op with
      | insert c n => exact insertColumns_rect m c n h
      | remove c n => exact removeColumns_rect m c n h

/-- Witness for C5: a two-column model (index slot and `Label`) with one
rectangular row, after an insert at the end and a removal at column 1. -/
theorem c5_shape_invariant_witness :
    ((applyColOps
      { header := [[], ['L', 'a', 'b', 'e', 'l']], rows := [[['0'], ['F', 'o', 'o']]] }
      [ColOp.insert 2 1, ColOp.remove 1 1]).rows.getD 0 []).length =
    (applyColOps
      { header := [[], ['L', 'a', 'b', 'e', 'l']], rows := [[['0'], ['F', 'o', 'o']]] }
      [ColOp.insert 2 1, ColOp.remove 1 1]).header.length :=
  c5_shape_invariant _ _ (by decide) _ (by decide)

/-- Example model for the out-of-bounds claims: a single (index) header
slot and no rows. -/
def mOut : TableModel := { header := [[]], rows := [] }

/-- Model with an index slot and one `Label` column, no rows, used for the
out-of-bounds witness and the row-insertion claims. -/
def mIns : TableModel := { header := [[], ['L', 'a', 'b', 'e', 'l']], rows := [] }

/-- C7 counterexample: `insertRows` called at row 5 of an empty table — an
out-of-bounds index — does not fail: it clamps the position, reports
success, and modifies the document by inserting a row. -/
theorem c7_range_error_cex :
    (insertRows mOut 5 1).1 = true ∧ (insertRows mOut 5 1).2 ≠ mOut := by decide

/-- C7 amended: only the removal and duplication operations reject an
out-of-bounds index, each against its own bound — the row operations
against the row count, the column operation against the header length —
and they signal the failure by returning `false` with the model unchanged
(no exception is raised); the insertion operations instead clamp the index
into range and succeed. -/
theorem c7_range_error_amended (m : TableModel) (i n : Int) :
    (i < 0 ∨ (m.rows.length : Int) ≤ i →
      removeRows m i n = (false, m) ∧ duplicateRow m i = (false, m)) ∧
    (i < 0 ∨ (m.header.length : Int) ≤ i →
      removeColumns m i n = (false, m)) := by
  refine ⟨fun hr => ⟨?_, ?_⟩, fun hc => ?_⟩
  · unfold removeRows
    by_cases hn : n ≤ 0
    · rw [if_pos hn]
    · rw [if_neg hn, if_pos hr]
  · unfold duplicateRow
    rw [if_pos hr]
  · unfold removeColumns
    by_cases hn : n ≤ 0
    · rw [if_pos hn]
    · rw [if_neg hn, if_pos hc]

/-- Witness for the amended C7 theorem on a table with a two-slot header
and no rows: row removal and duplication at index 0 — out of range for the
rows though within the header length — fail and change nothing, and column
removal at index 5 — beyond the header — fails and changes nothing. -/
theorem c7_range_error_amended_witness :
    (removeRows mIns 0 1 = (false, mIns) ∧ duplicateRow mIns 0 = (false, mIns)) ∧
      removeColumns mIns 5 1 = (false, mIns) :=
  ⟨(c7_range_error_amended mIns 0 1).1 (Or.inr (by decide)),
   (c7_range_error_amended mIns 5 1).2 (Or.inr (by decide))⟩

/-- C9 counterexample: inserting a row produces header-count fields holding
the empty string, not the sentinel. -/
theorem c9_insert_row_cex :
    (insertRows mIns 0 1).2.rows = [[[], []]] ∧
    (insertRows mIns 0 1).2.rows ≠ [[sentinel, sentinel]] := by decide

/-- C9 amended: for a position between 0 and the row count inclusive,
`insertRows` inserts exactly there one new row whose field count equals the
model header length (the file-header column count plus the leading index
slot), with every field the empty string; sentinel values appear only later
when `extract_data` pads rows at save time. -/
theorem c9_insert_row_amended (m : TableModel) (i : Int)
    (h0 : 0 ≤ i) (h1 : i ≤ (m.rows.length : Int)) :
    insertRows m i 1 =
      (true, { m with rows := m.rows.take i.toNat ++
        [List.replicate m.header.length []] ++ m.rows.drop i.toNat }) := by
  unfold insertRows
  rw [if_neg (by omega)]
  have hclamp : (min (max i 0) (m.rows.length : Int)).toNat = i.toNat := by omega
  rw [hclamp]
  rfl

/-- Witness for the amended C9 theorem. -/
theorem c9_insert_row_amended_witness :
    insertRows mIns 0 1 =
      (true, { mIns with rows := mIns.rows.take 0 ++
        [List.replicate mIns.header.length []] ++ mIns.rows.drop 0 }) :=
  c9_insert_row_amended mIns 0 (by decide) (by decide)

/-- C10: `extract_data` leaves the model state untouched and returns the
header together with one output row per stored row; each output row starts
with the stored row unshortened, has length the maximum of the stored row
length and the header length, and its added tail is sentinel padding. -/
theorem c10_extract_data_padding (m : TableModel) :
    (extract_data m).2 = m ∧
    (extract_data m).1.1 = m.header ∧
    (extract_data m).1.2.length = m.rows.length ∧
    (∀ i, i < m.rows.length →
      ((extract_data m).1.2.getD i []).take (m.rows.getD i []).length = m.rows.getD i [] ∧
      ((extract_data m).1.2.getD i []).length =
        max (m.rows.getD i []).length m.header.length ∧
      ((extract_data m).1.2.getD i []).drop (m.rows.getD i []).length =
        List.replicate (m.header.length - (m.rows.getD i []).length) sentinel) := by
  refine ⟨rfl, rfl, by simp [extract_data], ?_⟩
  intro i hi
  have hrow : (extract_data m).1.2.getD i [] =
      padTo (m.rows.getD i []) m.header.length sentinel := by
    show ((m.rows.map (fun r => padTo r m.header.length sentinel)).getD i []) = _
    rw [getD_map_of_lt (fun r => padTo r m.header.length sentinel) m.rows i [] [] hi]
  rw [hrow]
  unfold padTo
  refine ⟨List.take_left _ _, ?_, List.drop_left _ _⟩
  simp only [List.length_append, List.length_replicate]
  omega

/-- Witness for C10 at a model whose single row is shorter than the
header. -/
theorem c10_extract_data_padding_witness :
    (extract_data { header := [[], ['A'], ['B']], rows := [[['0']]] }).2 =
      { header := [[], ['A'], ['B']], rows := [[['0']]] } ∧
    ((extract_data { header := [[], ['A'], ['B']], rows := [[['0']]] }).1.2.getD 0 []).drop 1 =
      List.replicate 2 sentinel := by
  refine ⟨(c10_extract_data_padding _).1, ?_⟩
  have h := ((c10_extract_data_padding
    { header := [[], ['A'], ['B']], rows := [[['0']]] }).2.2.2 0 (by decide)).2.2
  simpa using h

lemma fieldText_decomp (w : Nat) (v : Str) :
    ∃ pad, fieldText w v = v ++ pad ∧ ∀ c ∈ pad, isWs c = true := by
  unfold fieldText
  by_cases hv : v = sentinel
  · refine ⟨[], ?_, by simp⟩
    rw [if_pos hv, hv]
    simp
  · refine ⟨List.replicate (actualWidth w v - v.length) ' ', ?_, ?_⟩
    · rw [if_neg hv]
      rfl
    · intro c hc
      rw [List.eq_of_mem_replicate hc]
      simp [isWs]

lemma rstrip_fieldText {w : Nat} {v : Str} (hne : v ≠ [])
    (hws : ∀ c ∈ v, isWs c = false) : rstrip (fieldText w v) = v := by
  obtain ⟨pad, hdec, hpad⟩ := fieldText_decomp w v
  rw [hdec, rstrip_append_ws hpad, rstrip_eq_self_of_ws_free hne hws]

lemma rstrip_ne_nil_of_mem {l : Str} {c : Char} (hc : c ∈ l) (hw : isWs c = false) :
    rstrip l ≠ [] := by
  intro h
  have := rstrip_eq_nil_iff.mp h c hc
  simp_all

lemma infix_of_ne_append {v X : Str} : v <:+: v ++ X := ⟨[], X, by simp⟩

lemma infix_append_left {v l X : Str} (h : v <:+: l) : v <:+: X ++ l := by
  obtain ⟨s, t, hst⟩ := h
  exact ⟨X ++ s, t, by rw [← hst]; simp⟩

lemma elseParts_infix : ∀ (spans : List (Nat × Nat)) (vals : List Str),
    (∀ v ∈ vals, v ≠ [] ∧ ∀ c ∈ v, isWs c = false) →
    ∀ i, i < min spans.length vals.length →
    vals.getD i [] <:+: rstrip (List.flatten (elseParts spans vals))
  | [], vals, _, i, hi => by simp at hi
  | _ :: _, [], _, i, hi => by simp at hi
  | [(s, e)], v :: vals2, hgood, i, hi => by
      have hi0 : i = 0 := by
        simp at hi
        omega
      subst hi0
      obtain ⟨hvne, hvws⟩ := hgood v (by simp)
      show v <:+: rstrip (List.flatten (elseParts [(s, e)] (v :: vals2)))
      rw [show elseParts [(s, e)] (v :: vals2) = [fieldText (e - s) v] from rfl]
      simp only [List.flatten_cons, List.flatten_nil, List.append_nil]
      rw [rstrip_fieldText hvne hvws]
  | (s, e) :: (s2, e2) :: spans2, v :: vals2, hgood, i, hi => by
      obtain ⟨hvne, hvws⟩ := hgood v (by simp)
      rw [show elseParts ((s, e) :: (s2, e2) :: spans2) (v :: vals2) =
        fieldText (e - s) v :: spacingAfter s e s2 v ::
          elseParts ((s2, e2) :: spans2) vals2 from rfl]
      simp only [List.flatten_cons]
      rcases vals2 with _ | ⟨v2, vals3⟩
      · -- no further values: the trailing spacing is stripped away
        have hi0 : i = 0 := by
          simp at hi
          omega
        subst hi0
        show v <:+: rstrip (fieldText (e - s) v ++
          (spacingAfter s e s2 v ++ List.flatten (elseParts ((s2, e2) :: spans2) [])))
        rw [show elseParts ((s2, e2) :: spans2) ([] : List Str) = [] by
          cases spans2 <;> rfl]
        simp only [List.flatten_nil, List.append_nil]
        have hsp : ∀ c ∈ spacingAfter s e s2 v, isWs c = true := by
          intro c hc
          rw [List.eq_of_mem_replicate hc]
          simp [isWs]
        rw [rstrip_append_ws hsp, rstrip_fieldText hvne hvws]
      · -- further values follow
        have hJ : rstrip (List.flatten (elseParts ((s2, e2) :: spans2) (v2 :: vals3))) ≠ [] := by
          obtain ⟨hv2ne, hv2ws⟩ := hgood v2 (by simp)
          rcases spans2 with _ | ⟨⟨s3, e3⟩, spans3⟩
          · rw [show elseParts [(s2, e2)] (v2 :: vals3) = [fieldText (e2 - s2) v2] from rfl]
            simp only [List.flatten_cons, List.flatten_nil, List.append_nil]
            rw [rstrip_fieldText hv2ne hv2ws]
            exact hv2ne
          · rw [show elseParts ((s2, e2) :: (s3, e3) :: spans3) (v2 :: vals3) =
              fieldText (e2 - s2) v2 :: spacingAfter s2 e2 s3 v2 ::
                elseParts ((s3, e3) :: spans3) vals3 from rfl]
            simp only [List.flatten_cons]
            obtain ⟨pad, hdec, _⟩ := fieldText_decomp (e2 - s2) v2
            obtain ⟨c2, v2t, hv2c⟩ := List.exists_cons_of_ne_nil hv2ne
            apply rstrip_ne_nil_of_mem (c := c2)
            · rw [hdec, hv2c]
              simp
            · exact hv2ws c2 (by rw [hv2c]; simp)
        have hsplit : rstrip (fieldText (e - s) v ++ (spacingAfter s e s2 v ++
            List.flatten (elseParts ((s2, e2) :: spans2) (v2 :: vals3)))) =
            (fieldText (e - s) v ++ spacingAfter s e s2 v) ++
              rstrip (List.flatten (elseParts ((s2, e2) :: spans2) (v2 :: vals3))) := by
          rw [← List.append_assoc]
          exact rstrip_append_of_ne_nil _ hJ
        rw [hsplit]
        rcases i with _ | i2
        · -- the head value sits at the front of its field text
          obtain ⟨pad, hdec, _⟩ := fieldText_decomp (e - s) v
          show v <:+: (fieldText (e - s) v ++ spacingAfter s e s2 v) ++
            rstrip (List.flatten (elseParts ((s2, e2) :: spans2) (v2 :: vals3)))
          rw [hdec]
          refine ⟨[], pad ++ spacingAfter s e s2 v ++
            rstrip (List.flatten (elseParts ((s2, e2) :: spans2) (v2 :: vals3))), ?_⟩
          simp
        · -- later values are infixes of the rebuilt tail
          have hrec := elseParts_infix ((s2, e2) :: spans2) (v2 :: vals3)
            (fun x hx => hgood x (by simp [hx])) i2 (by
              simp only [List.length_cons] at hi ⊢
              omega)
          show (v2 :: vals3).getD i2 [] <:+: _
          exact infix_append_left hrec

/-
Concrete documents used by the C2, C3 and C6 claims.
-/

/-- Bytes of the file `2DA V2.0\nLabel\n0 Foo\n`. -/
def tLabelFoo : Str :=
  ['2', 'D', 'A', ' ', 'V', '2', '.', '0', '\n',
   'L', 'a', 'b', 'e', 'l', '\n', '0', ' ', 'F', 'o', 'o', '\n']

/-- The record `load_2da` produces for `tLabelFoo`. -/
def dLabelFoo : TwoDAData :=
  { header_fields := [['L', 'a', 'b', 'e', 'l']]
  , row_fields := [[['0'], ['F', 'o', 'o']]]
  , header_format := parse_raw_line ['L', 'a', 'b', 'e', 'l']
  , row_formats := [parse_raw_line ['0', ' ', 'F', 'o', 'o']]
  , version_line := default2DA
  , empty_lines_before_header := 0
  , linesep := lfStr }

def strHello : Str := ['H', 'e', 'l', 'l', 'o']

/-- The model after loading `tLabelFoo`, appending a column at position 2
and writing `Hello` into the new cell of row 0. -/
def mC2 : TableModel :=
  (setData (insertColumns (modelOfData dLabelFoo) 2 1).2 0 2 strHello).2

/-- C2, counterexample: after a column insert the row holds `Hello` in its
new cell, yet the saved bytes equal the original file — the value is not
shortened but dropped outright (the rebuilder iterates over
`zip(fmt.spans, new_fields)`, discarding fields beyond the span count), so
save does not emit the cell's current value at all. -/
theorem c2_no_truncation_cex :
    load_2da tLabelFoo = some dLabelFoo ∧
    (mC2.rows.getD 0 []).getD 2 [] = strHello ∧
    gui_save dLabelFoo mC2 = tLabelFoo ∧
    ¬ strHello <:+: gui_save dLabelFoo mC2 := by decide

/-- C2, amended: restricted to cells that have a span, the claim holds.  In
the dynamic-expansion mode used for every data row
(`preserve_spacing = false`), any value at an index below the span count —
nonempty and whitespace-free, as every loaded or sentinel-padded field is —
appears contiguously and in full in the rebuilt line, whatever width vector
is passed: the rebuilder pads but never truncates spanned values. -/
theorem c2_no_truncation_amended (fmt : TwoDARow) (vals : List Str) (w : List Nat)
    (hvals : ∀ v ∈ vals, v ≠ [] ∧ ∀ c ∈ v, isWs c = false)
    (i : Nat) (hi : i < min fmt.spans.length vals.length) :
    vals.getD i [] <:+: rebuild_line_dynamic fmt vals w false := by
  have hcond : ¬(vals = [] ∨ fmt.spans = []) := by
    rintro (h | h) <;> rw [h] at hi <;> simp at hi
  unfold rebuild_line_dynamic
  rw [if_neg hcond]
  simp only [Bool.false_and, Bool.false_eq_true, if_false]
  exact elseParts_infix fmt.spans vals hvals i hi

/-- Witness for the amended C2 theorem on the row `0 Foo` with its own
fields: the value `Foo` at index 1 is an infix of the rebuilt line. -/
theorem c2_no_truncation_amended_witness :
    (∀ v ∈ [['0'], ['F', 'o', 'o']], v ≠ [] ∧ ∀ c ∈ v, isWs c = false) ∧
    1 < min (parse_raw_line ['0', ' ', 'F', 'o', 'o']).spans.length
        [['0'], ['F', 'o', 'o']].length ∧
    ([['0'], ['F', 'o', 'o']].getD 1 [] <:+:
      rebuild_line_dynamic (parse_raw_line ['0', ' ', 'F', 'o', 'o'])
        [['0'], ['F', 'o', 'o']] [] false) :=
  ⟨by decide, by decide,
    c2_no_truncation_amended (parse_raw_line ['0', ' ', 'F', 'o', 'o'])
      [['0'], ['F', 'o', 'o']] [] (by decide) 1 (by decide)⟩

/-- The model after loading `tLabelFoo` and setting the cell under `Label`
in row 0 to the empty string. -/
def mC3 : TableModel := (setData (modelOfData dLabelFoo) 0 1 []).2

/-- The record `load_2da` produces for the bytes `2DA V2.0\nLabel\n0\n`. -/
def dC3Reload : TwoDAData :=
  { header_fields := [['L', 'a', 'b', 'e', 'l']]
  , row_fields := [[['0']]]
  , header_format := parse_raw_line ['L', 'a', 'b', 'e', 'l']
  , row_formats := [parse_raw_line ['0']]
  , version_line := default2DA
  , empty_lines_before_header := 0
  , linesep := lfStr }

/-- C3: setting a non-index cell to the empty string, saving and reloading
does not yield the sentinel for that cell.  The rebuilder left-justifies
the empty string to blank padding which `rstrip` removes, so the saved row
line is just `0`; on reload the row has a single field and the edited cell
is gone entirely rather than normalised to `****`.  The empty string is
never mapped to the sentinel anywhere in `rebuild_line_dynamic` or
`save_2da`. -/
theorem c3_sentinel_roundtrip_bug :
    load_2da tLabelFoo = some dLabelFoo ∧
    (mC3.rows.getD 0 []).getD 1 [] = [] ∧
    gui_save dLabelFoo mC3 =
      ['2', 'D', 'A', ' ', 'V', '2', '.', '0', '\n',
       'L', 'a', 'b', 'e', 'l', '\n', '0', '\n'] ∧
    load_2da (gui_save dLabelFoo mC3) = some dC3Reload ∧
    dC3Reload.row_fields = [[['0']]] ∧
    ∀ d2, load_2da (gui_save dLabelFoo mC3) = some d2 →
      (d2.row_fields.getD 0 []).getD 1 [] ≠ sentinel := by decide

/-- Bytes of the file `2DA V2.0\nLabel  Icon\n0  Foo  icn_1\n`. -/
def tC6 : Str :=
  ['2', 'D', 'A', ' ', 'V', '2', '.', '0', '\n',
   'L', 'a', 'b', 'e', 'l', ' ', ' ', 'I', 'c', 'o', 'n', '\n',
   '0', ' ', ' ', 'F', 'o', 'o', ' ', ' ', 'i', 'c', 'n', '_', '1', '\n']

/-- The record `load_2da` produces for `tC6`. -/
def dC6 : TwoDAData :=
  { header_fields := [['L', 'a', 'b', 'e', 'l'], ['I', 'c', 'o', 'n']]
  , row_fields := [[['0'], ['F', 'o', 'o'], ['i', 'c', 'n', '_', '1']]]
  , header_format := parse_raw_line
      ['L', 'a', 'b', 'e', 'l', ' ', ' ', 'I', 'c', 'o', 'n']
  , row_formats := [parse_raw_line
      ['0', ' ', ' ', 'F', 'o', 'o', ' ', ' ', 'i', 'c', 'n', '_', '1']]
  , version_line := default2DA
  , empty_lines_before_header := 0
  , linesep := lfStr }

/-- The model after loading `tC6` and inserting one column at model
position 3 (appending after `Icon`). -/
def mC6 : TableModel := (insertColumns (modelOfData dC6) 3 1).2

/-- C6: on the scenario document, `InsertColumn` does produce the claimed
in-memory header `Label, Icon, NewColumn` and row `0, Foo, icn_1, ****`,
but saving writes bytes identical to the original file — the new column
never reaches disk, because both rebuild paths iterate over
`zip(fmt.spans, new_fields)` and the formats still carry only the old
spans — so reloading yields the original two header labels and three row
fields, not the claimed four-field row. -/
theorem c6_insert_column_scenario_bug :
    load_2da tC6 = some dC6 ∧
    mC6.header =
      [[], ['L', 'a', 'b', 'e', 'l'], ['I', 'c', 'o', 'n'],
       ['N', 'e', 'w', 'C', 'o', 'l', 'u', 'm', 'n']] ∧
    mC6.rows = [[['0'], ['F', 'o', 'o'], ['i', 'c', 'n', '_', '1'], sentinel]] ∧
    gui_save dC6 mC6 = tC6 ∧
    load_2da (gui_save dC6 mC6) = some dC6 ∧
    dC6.header_fields ≠ mC6.header.drop 1 ∧
    dC6.row_fields ≠ mC6.rows := by decide

lemma filter_dropWhile_not {α : Type} (p : α → Bool) (l : List α) :
    (l.dropWhile p).filter (fun x => !(p x)) = l.filter (fun x => !(p x)) := by
  induction l with
  | nil => rfl
  | cons x xs ih =>
      by_cases hx : p x = true
      · simp [List.dropWhile_cons, hx, List.filter_cons, ih]
      · simp [List.dropWhile_cons, hx, List.filter_cons]

/-- Bytes of a file whose first line is blank and whose first non-blank
line `2DA V2.5` matches the version-tag pattern. -/
def tC8 : Str :=
  ['\n', '2', 'D', 'A', ' ', 'V', '2', '.', '5', '\n',
   'A', ' ', 'B', '\n', '0', ' ', 'x', ' ', 'y', '\n']

/-- The record `load_2da` produces for `tC8`. -/
def dC8 : TwoDAData :=
  { header_fields := [['2', 'D', 'A'], ['V', '2', '.', '5']]
  , row_fields := [[['A'], ['B']], [['0'], ['x'], ['y']]]
  , header_format := parse_raw_line ['2', 'D', 'A', ' ', 'V', '2', '.', '5']
  , row_formats := [parse_raw_line ['A', ' ', 'B'],
      parse_raw_line ['0', ' ', 'x', ' ', 'y']]
  , version_line := default2DA
  , empty_lines_before_header := 1
  , linesep := lfStr }

/-- C8, counterexample: in `tC8` the first non-blank line is `2DA V2.5`
and matches the recognised version-tag pattern, yet the loader — which
tests only the literal first line, here blank — does not consume it: the
returned version label is the default `2DA V2.0`, and the matching line is
parsed as the header instead of being excluded. -/
theorem c8_version_detection_cex :
    ((splitLines tC8).dropWhile blankLine).getD 0 [] =
      ['2', 'D', 'A', ' ', 'V', '2', '.', '5'] ∧
    py_startswith str2DA
      (pystrip (((splitLines tC8).dropWhile blankLine).getD 0 [])) = true ∧
    load_2da tC8 = some dC8 ∧
    dC8.version_line ≠ ['2', 'D', 'A', ' ', 'V', '2', '.', '5'] ∧
    dC8.header_fields = [['2', 'D', 'A'], ['V', '2', '.', '5']] := by decide

/-- C8 (amended): version detection examines only the literal first line.
If the stripped first line starts with `2DA` it is consumed as the version
label and the header is the first non-blank of the remaining lines;
otherwise the default label is assumed and no line is consumed — the first
non-blank line of the whole file, even one matching the pattern, becomes
the header. -/
theorem c8_version_detection_amended (l0 : Str) (rest : List Str) (ls : Str)
    (d : TwoDAData) (h : load_lines (l0 :: rest) ls = some d) :
    (py_startswith str2DA (pystrip l0) = true →
      d.version_line = pystrip l0 ∧
      ∃ hl tl, rest.filter (fun l => !(blankLine l)) = hl :: tl ∧
        d.header_format = parse_raw_line hl) ∧
    (py_startswith str2DA (pystrip l0) = false →
      d.version_line = default2DA ∧
      ∃ hl tl, (l0 :: rest).filter (fun l => !(blankLine l)) = hl :: tl ∧
        d.header_format = parse_raw_line hl) := by
  unfold load_lines at h
  by_cases hb : py_startswith str2DA (pystrip l0) = true
  · simp only [hb, if_true] at h
    refine ⟨fun _ => ?_, fun hf => absurd hb (by simp [hf])⟩
    rcases hfil : (rest.dropWhile blankLine).filter (fun l => !(blankLine l))
      with _ | ⟨hl, tl⟩
    · rw [hfil] at h
      simp at h
    · rw [hfil] at h
      simp only [List.map_cons, Option.some_inj] at h
      subst h
      refine ⟨rfl, hl, tl, ?_, rfl⟩
      rw [← filter_dropWhile_not blankLine rest, hfil]
  · simp only [hb, Bool.false_eq_true, if_false] at h
    refine ⟨fun ht => absurd ht hb, fun _ => ?_⟩
    rcases hfil : ((l0 :: rest).dropWhile blankLine).filter (fun l => !(blankLine l))
      with _ | ⟨hl, tl⟩
    · rw [hfil] at h
      simp at h
    · rw [hfil] at h
      simp only [List.map_cons, Option.some_inj] at h
      subst h
      refine ⟨rfl, hl, tl, ?_, rfl⟩
      rw [← filter_dropWhile_not blankLine (l0 :: rest), hfil]

/-- Bytes of the file `2DA V2.0\nA\n0 x\n`. -/
def tW : Str :=
  ['2', 'D', 'A', ' ', 'V', '2', '.', '0', '\n', 'A', '\n', '0', ' ', 'x', '\n']

/-- The record `load_2da` produces for `tW`. -/
def docW : TwoDAData :=
  { header_fields := [['A']]
  , row_fields := [[['0'], ['x']]]
  , header_format := parse_raw_line ['A']
  , row_formats := [parse_raw_line ['0', ' ', 'x']]
  , version_line := default2DA
  , empty_lines_before_header := 0
  , linesep := lfStr }

/-- Witness for the amended C8 theorem: on the line list of `tW`, whose
first line does match the pattern, the loaded version label is that
stripped first line. -/
theorem c8_version_detection_amended_witness :
    docW.version_line = pystrip ['2', 'D', 'A', ' ', 'V', '2', '.', '0'] :=
  ((c8_version_detection_amended ['2', 'D', 'A', ' ', 'V', '2', '.', '0']
      [['A'], ['0', ' ', 'x']] lfStr docW (by decide)).1 (by decide)).1

/-- Witness for C1 on the file `2DA V2.0\nA\n0 x\n`: its load succeeds, and
saving, reloading and saving again reproduces the first save's bytes. -/
theorem c1_idempotent_reformat_witness :
    load_2da tW = some docW ∧
    ∃ d2, load_2da (save_2da docW) = some d2 ∧ save_2da d2 = save_2da docW :=
  ⟨by decide, c1_idempotent_reformat tW docW (by decide)⟩
